import Mathlib

/-!
Verification development for the provider protocol engine of the talkcody
repository (`src-tauri/src/llm`): the OpenAI-compatible stream parser and
request builder (`llm/protocols/openai_protocol.rs`) and the model/provider
resolution logic (`llm/models/model_registry.rs`).

The Rust code is shallowly embedded: `serde_json::Value` becomes the `Json`
inductive below (numbers restricted to integers, which covers every numeric
field the embedded routines inspect), Rust `HashMap`s become association
lists keyed by first match, `Vec` becomes `List`, and the mutable
`ProtocolStreamState` becomes explicit state passing.
-/

namespace TalkCody

/-- Model of `serde_json::Value`.  Numbers are modelled as integers: the
embedded routines only ever read numbers through `as_i64`/`as_u64` and only
ever build integer-valued numbers in the positions a claim inspects. -/
inductive Json where
  | null : Json
  | bool (b : Bool) : Json
  | num (n : Int) : Json
  | str (s : String) : Json
  | arr (elems : List Json) : Json
  | obj (fields : List (String × Json)) : Json
deriving Repr

namespace Json

/-- `Value::get(key)`: field lookup on an object, `None` on other shapes. -/
def get (j : Json) (key : String) : Option Json :=
  match j with
  | .obj fields => (fields.find? (fun p => p.1 == key)).map (fun p => p.2)
  | _ => none

/-- `Value::as_str`. -/
def asStr : Json → Option String
  | .str s => some s
  | _ => none

/-- `Value::as_i64` (on our integer-only number model). -/
def asInt : Json → Option Int
  | .num n => some n
  | _ => none

/-- `Value::as_u64`: a number viewed as a non-negative integer. -/
def asNat : Json → Option Nat
  | .num n => if 0 ≤ n then some n.toNat else none
  | _ => none

/-- `Value::as_array`. -/
def asArr : Json → Option (List Json)
  | .arr elems => some elems
  | _ => none

def isObj : Json → Bool
  | .obj _ => true
  | _ => false

def isArrB : Json → Bool
  | .arr _ => true
  | _ => false

def isStrB : Json → Bool
  | .str _ => true
  | _ => false

def isNumB : Json → Bool
  | .num _ => true
  | _ => false

def isBoolB : Json → Bool
  | .bool _ => true
  | _ => false

def isNullB : Json → Bool
  | .null => true
  | _ => false

/-- String escaping for serialization, modelling `serde_json`'s output on
the characters that actually occur in this development (quote and
backslash; other characters are emitted verbatim). -/
def escapeString (s : String) : String :=
  s.data.foldl
    (fun acc c =>
      if c = '\\' then acc ++ "\\\\"
      else if c = '"' then acc ++ "\\\""
      else acc.push c)
    ""

mutual

/-- Model of `serde_json::Value::to_string` (compact serialization). -/
def render : Json → String
  | .null => "null"
  | .bool true => "true"
  | .bool false => "false"
  | .num n => toString n
  | .str s => "\"" ++ escapeString s ++ "\""
  | .arr elems => "[" ++ renderArr elems ++ "]"
  | .obj fields => "\x7b" ++ renderObj fields ++ "\x7d"

def renderArr : List Json → String
  | [] => ""
  | [x] => render x
  | x :: y :: rest => render x ++ "," ++ renderArr (y :: rest)

def renderObj : List (String × Json) → String
  | [] => ""
  | [(k, v)] => "\"" ++ escapeString k ++ "\":" ++ render v
  | (k, v) :: p :: rest =>
      "\"" ++ escapeString k ++ "\":" ++ render v ++ "," ++ renderObj (p :: rest)

end

/-- `serde_json::Map::insert`: replace the value at an existing key, else
append the binding. -/
def objInsert (key : String) (v : Json) : List (String × Json) → List (String × Json)
  | [] => [(key, v)]
  | (k, w) :: rest =>
      if k == key then (k, v) :: rest else (k, w) :: objInsert key v rest

/-- Top-level object insertion, `body[key] = value` on a `Value` known to be
an object (other shapes are left unchanged, as `as_object_mut` fails). -/
def setField (j : Json) (key : String) (v : Json) : Json :=
  match j with
  | .obj fields => .obj (objInsert key v fields)
  | other => other

end Json

/-! ### A small executable JSON text parser

Model of `serde_json::from_str` sufficient for the payloads exercised here:
objects, arrays, strings (with `\"`, `\\`, `\/`, `\n`, `\t`, `\r` escapes),
integer numbers, `true`/`false`/`null`, and whitespace.  It is used on both
sides of every statement that mentions parsing, so claims compare the code
against the specification under one and the same parsing function. -/

def skipWs : List Char → List Char
  | c :: rest =>
      if c = ' ' ∨ c = '\n' ∨ c = '\t' ∨ c = '\r' then skipWs rest else c :: rest
  | [] => []

def parseEscape (c : Char) : Option Char :=
  if c = '"' then some '"'
  else if c = '\\' then some '\\'
  else if c = '/' then some '/'
  else if c = 'n' then some '\n'
  else if c = 't' then some '\t'
  else if c = 'r' then some '\r'
  else none

def parseStringBody : Nat → List Char → List Char → Option (String × List Char)
  | 0, _, _ => none
  | _ + 1, _, [] => none
  | fuel + 1, acc, c :: rest =>
      if c = '"' then some (String.mk acc.reverse, rest)
      else if c = '\\' then
        match rest with
        | [] => none
        | e :: rest2 =>
            match parseEscape e with
            | some ec => parseStringBody fuel (ec :: acc) rest2
            | none => none
      else parseStringBody fuel (c :: acc) rest

def parseDigits : Nat → Nat → List Char → (Nat × List Char)
  | 0, acc, rest => (acc, rest)
  | fuel + 1, acc, cs =>
      match cs with
      | c :: rest =>
          if c.isDigit then parseDigits fuel (acc * 10 + (c.toNat - '0'.toNat)) rest
          else (acc, c :: rest)
      | [] => (acc, [])

def parseNumber (cs : List Char) : Option (Json × List Char) :=
  match cs with
  | '-' :: d :: rest =>
      if d.isDigit then
        let (n, rest2) := parseDigits (rest.length + 1) (d.toNat - '0'.toNat) rest
        some (.num (-(Int.ofNat n)), rest2)
      else none
  | d :: rest =>
      if d.isDigit then
        let (n, rest2) := parseDigits (rest.length + 1) (d.toNat - '0'.toNat) rest
        some (.num (Int.ofNat n), rest2)
      else none
  | [] => none

/-- Dispatch tag for the single-fuel JSON parsing loop: a value, the items
of an object after `\x7b`, or the items of an array after `[`. -/
inductive ParseMode where
  | val : ParseMode
  | objItems : List (String × Json) → ParseMode
  | arrItems : List Json → ParseMode

/-- The recursive core of the JSON text parser, structurally recursive on
the fuel so that concrete parses reduce definitionally. -/
def parseCore : Nat → ParseMode → List Char → Option (Json × List Char)
  | 0, _, _ => none
  | fuel + 1, .val, cs =>
      match skipWs cs with
      | [] => none
      | c :: rest =>
          if c = '\x7b' then
            match skipWs rest with
            | '\x7d' :: rest2 => some (.obj [], rest2)
            | other => parseCore fuel (.objItems []) other
          else if c = '[' then
            match skipWs rest with
            | ']' :: rest2 => some (.arr [], rest2)
            | other => parseCore fuel (.arrItems []) other
          else if c = '"' then
            match parseStringBody (rest.length + 1) [] rest with
            | some (s, rest2) => some (.str s, rest2)
            | none => none
          else if c = 't' then
            match rest with
            | 'r' :: 'u' :: 'e' :: rest2 => some (.bool true, rest2)
            | _ => none
          else if c = 'f' then
            match rest with
            | 'a' :: 'l' :: 's' :: 'e' :: rest2 => some (.bool false, rest2)
            | _ => none
          else if c = 'n' then
            match rest with
            | 'u' :: 'l' :: 'l' :: rest2 => some (.null, rest2)
            | _ => none
          else parseNumber (c :: rest)
  | fuel + 1, .objItems acc, cs =>
      match skipWs cs with
      | '"' :: rest =>
          match parseStringBody (rest.length + 1) [] rest with
          | some (key, rest2) =>
              match skipWs rest2 with
              | ':' :: rest3 =>
                  match parseCore fuel .val rest3 with
                  | some (v, rest4) =>
                      match skipWs rest4 with
                      | ',' :: rest5 => parseCore fuel (.objItems (acc ++ [(key, v)])) rest5
                      | '\x7d' :: rest5 => some (.obj (acc ++ [(key, v)]), rest5)
                      | _ => none
                  | none => none
              | _ => none
          | none => none
      | _ => none
  | fuel + 1, .arrItems acc, cs =>
      match parseCore fuel .val cs with
      | some (v, rest) =>
          match skipWs rest with
          | ',' :: rest2 => parseCore fuel (.arrItems (acc ++ [v])) rest2
          | ']' :: rest2 => some (.arr (acc ++ [v]), rest2)
          | _ => none
      | none => none

/-- Parse one JSON value. -/
def parseVal (fuel : Nat) (cs : List Char) : Option (Json × List Char) :=
  parseCore fuel .val cs

/-- Model of `serde_json::from_str::<Value>`. -/
def jsonParse (s : String) : Option Json :=
  match parseVal (4 * s.length + 8) s.data with
  | some (v, rest) => if skipWs rest = [] then some v else none
  | none => none

/-- Whether a character belongs to the whitespace set stripped by
`str::trim` (the ASCII part, matching the whitespace set of `skipWs`). -/
def isWsChar (c : Char) : Bool :=
  c = ' ' ∨ c = '\n' ∨ c = '\t' ∨ c = '\r'

/-- Model of `str::trim`: strip whitespace from both ends. -/
def trimStr (s : String) : String :=
  String.mk (((s.data.dropWhile isWsChar).reverse.dropWhile isWsChar).reverse)

/-! ### Canonical stream events and the per-stream parse state

`StreamEvent` is translated from `llm/types.rs`.  `ProtocolStreamState` and
`ToolCallAccum` are declared in `llm/protocols/mod.rs`, which is not part of
the sources at hand; their fields are modelled from the spec (§3
"ProtocolStreamState", §3 "StreamEvent") and from every access the
`openai_protocol.rs` routines make.  Hash maps and the hash set become
association lists; the pending-events `Vec` keeps push-to-back order. -/

/-- Translated from `StreamEvent` in `llm/types.rs`. -/
inductive StreamEvent where
  | textStart : StreamEvent
  | textDelta (text : String) : StreamEvent
  | toolCall (tool_call_id : String) (tool_name : String) (input : Json) : StreamEvent
  | reasoningStart (id : String) (provider_metadata : Option Json) : StreamEvent
  | reasoningDelta (id : String) (text : String) (provider_metadata : Option Json) : StreamEvent
  | reasoningEnd (id : String) : StreamEvent
  | usage (input_tokens : Int) (output_tokens : Int) (total_tokens : Option Int)
      (cached_input_tokens : Option Int) (cache_creation_input_tokens : Option Int) : StreamEvent
  | done (finish_reason : Option String) : StreamEvent
  | error (message : String) : StreamEvent
  | raw (raw_value : String) : StreamEvent
deriving Repr

/-- Modelled from the spec: the in-progress tool-call accumulator (§3
`tool_calls`: "id, name, concatenated argument text"), matching every field
access in `OpenAiProtocol::parse_tool_delta` / `emit_tool_calls`. -/
structure ToolCallAccum where
  tool_call_id : String
  tool_name : String
  arguments : String
deriving Repr

/-- Modelled from the spec: the sole mutable entity (§3
`ProtocolStreamState`), with exactly the fields the `openai_protocol.rs`
routines read and write.  `HashMap`/`HashSet` are association lists / lists
keyed by first match. -/
@[ext]
structure ProtocolStreamState where
  pending_events : List StreamEvent := []
  tool_call_index_map : List (Nat × String) := []
  tool_calls : List (String × ToolCallAccum) := []
  tool_call_order : List String := []
  emitted_tool_calls : List String := []
  reasoning_started : Bool := false
  reasoning_id : Option String := none
  text_started : Bool := false
  finish_reason : Option String := none
deriving Repr

/-- `ProtocolStreamState::default()`. -/
def initState : ProtocolStreamState := {}

/-- `Vec::push` on `pending_events`. -/
def pushEvent (e : StreamEvent) (s : ProtocolStreamState) : ProtocolStreamState :=
  { s with pending_events := s.pending_events ++ [e] }

/-- `HashMap<u64, String>::get`. -/
def lookupNat (k : Nat) : List (Nat × String) → Option String
  | [] => none
  | (k', v) :: rest => if k' = k then some v else lookupNat k rest

/-- `HashMap::entry(k).or_insert_with(v)`: insert only when the key is absent. -/
def orInsertNat (k : Nat) (v : String) : List (Nat × String) → List (Nat × String)
  | [] => [(k, v)]
  | (k', w) :: rest =>
      if k' = k then (k', w) :: rest else (k', w) :: orInsertNat k v rest

/-- `HashMap<String, ToolCallAccum>::get`. -/
def lookupAcc (k : String) : List (String × ToolCallAccum) → Option ToolCallAccum
  | [] => none
  | (k', v) :: rest => if k' = k then some v else lookupAcc k rest

/-- Store an accumulator under a key: replace the existing binding in place,
else append (the combined effect of `entry(k).or_insert_with(..)` followed by
in-place mutation of the accumulator). -/
def storeAcc (k : String) (acc : ToolCallAccum) : List (String × ToolCallAccum) → List (String × ToolCallAccum)
  | [] => [(k, acc)]
  | (k', v) :: rest =>
      if k' = k then (k', acc) :: rest else (k', v) :: storeAcc k acc rest

/-- A fixed token standing in for `format!("reasoning_{}", uuid::Uuid::new_v4())`.
Modelled from the spec: the uuid is external entropy ("mint a fresh reasoning
id", §4.2); at most one id is minted per stream, so a constant is
observationally equivalent within one stream. -/
def mkReasoningId : String := "reasoning_00000000-0000-4000-8000-000000000000"

/-! ### `OpenAiProtocol::parse_tool_delta` (openai_protocol.rs lines 230-323)

The loop body touches exactly three state fields (`tool_call_index_map`,
`tool_calls`, `tool_call_order`); it is translated as a function on that
triple, folded over the `tool_calls` array of the delta. -/

/-- One iteration of the `for entry in tool_calls` loop of
`parse_tool_delta`, acting on the triple
(`tool_call_index_map`, `tool_calls`, `tool_call_order`). -/
def parseToolEntryCore (entry : Json)
    (t : List (Nat × String) × List (String × ToolCallAccum) × List String) :
    List (Nat × String) × List (String × ToolCallAccum) × List String :=
  let indexMap := t.1
  let calls := t.2.1
  let order := t.2.2
  let index := (entry.get "index").bind Json.asNat
  let tool_call_id := ((entry.get "id").bind Json.asStr).getD ""
  let indexMap :=
    match index with
    | some i => if tool_call_id ≠ "" then orInsertNat i tool_call_id indexMap else indexMap
    | none => indexMap
  let key :=
    if tool_call_id ≠ "" then tool_call_id
    else
      match index with
      | some i =>
          match lookupNat i indexMap with
          | some mapped => mapped
          | none =>
              match order.get? i with
              | some fromOrder => fromOrder
              | none => toString i
      | none => ""
  if key = "" then (indexMap, calls, order)
  else
    let function := entry.get "function"
    let name := ((function.bind (fun f => f.get "name")).bind Json.asStr).getD ""
    let args_value := function.bind (fun f => f.get "arguments")
    let acc :=
      match lookupAcc key calls with
      | some acc => acc
      | none =>
          { tool_call_id := if tool_call_id = "" then key else tool_call_id
            tool_name := name
            arguments := "" }
    let acc := if tool_call_id ≠ "" then { acc with tool_call_id := tool_call_id } else acc
    let acc := if name ≠ "" then { acc with tool_name := name } else acc
    let acc :=
      match args_value with
      | some args_val =>
          match args_val.asStr with
          | some args_str =>
              if args_str ≠ "" then { acc with arguments := acc.arguments ++ args_str } else acc
          | none =>
              if acc.arguments = "" then { acc with arguments := args_val.render } else acc
      | none => acc
    let calls := storeAcc key acc calls
    match index with
    | some order_index =>
        let order :=
          if order.length ≤ order_index then
            order ++ List.replicate (order_index + 1 - order.length) ""
          else order
        let placeholder := toString order_index
        let slot := (order.get? order_index).getD ""
        let order :=
          if slot = "" ∨ slot = placeholder ∨ (tool_call_id ≠ "" ∧ slot ≠ key) then
            order.set order_index key
          else order
        (indexMap, calls, order)
    | none =>
        if order.contains key then (indexMap, calls, order)
        else (indexMap, calls, order ++ [key])

/-- `OpenAiProtocol::parse_tool_delta`. -/
def parseToolDelta (delta : Json) (s : ProtocolStreamState) : ProtocolStreamState :=
  match (delta.get "tool_calls").bind Json.asArr with
  | none => s
  | some entries =>
      let t := entries.foldl (fun t e => parseToolEntryCore e t)
        (s.tool_call_index_map, s.tool_calls, s.tool_call_order)
      { s with
          tool_call_index_map := t.1
          tool_calls := t.2.1
          tool_call_order := t.2.2 }

/-! ### `OpenAiProtocol::emit_tool_calls` (openai_protocol.rs lines 325-353) -/

/-- One iteration of the `for key in state.tool_call_order.clone()` loop. -/
def emitStep (force : Bool) (s : ProtocolStreamState) (key : String) : ProtocolStreamState :=
  if s.emitted_tool_calls.contains key then s
  else
    match lookupAcc key s.tool_calls with
    | none => s
    | some acc =>
        if acc.tool_name = "" then s
        else if force = false ∧ trimStr acc.arguments = "" then s
        else
          let input_value :=
            if trimStr acc.arguments = "" then Json.obj []
            else
              match jsonParse acc.arguments with
              | some v => v
              | none => Json.str acc.arguments
          let s := pushEvent (.toolCall acc.tool_call_id acc.tool_name input_value) s
          { s with emitted_tool_calls := s.emitted_tool_calls ++ [key] }

/-- `OpenAiProtocol::emit_tool_calls`: iterates over a snapshot of
`tool_call_order`. -/
def emitToolCalls (force : Bool) (s : ProtocolStreamState) : ProtocolStreamState :=
  s.tool_call_order.foldl (emitStep force) s

/-! ### `OpenAiProtocol::parse_stream_event` (openai_protocol.rs lines 426-547) -/

/-- The inbound chunk text after the two source-level decoding steps:
`data.trim() == "[DONE]"` and `serde_json::from_str::<Value>(data)`.
`done` is the stream terminator sentinel, `malformed` a chunk that is not
the sentinel and fails to parse as JSON, `payload v` a successfully parsed
JSON chunk. -/
inductive ChunkData where
  | done : ChunkData
  | malformed : ChunkData
  | payload (v : Json) : ChunkData

/-- The usage block handling at the top of `parse_stream_event`
(lines 455-479). -/
def handleUsage (v : Json) (s : ProtocolStreamState) : ProtocolStreamState :=
  match v.get "usage" with
  | none => s
  | some usage =>
      let input_tokens := ((usage.get "prompt_tokens").bind Json.asInt).getD 0
      let output_tokens := ((usage.get "completion_tokens").bind Json.asInt).getD 0
      let total_tokens := (usage.get "total_tokens").bind Json.asInt
      if 0 < input_tokens ∨ 0 < output_tokens ∨ (total_tokens.getD 0) > 0 then
        pushEvent (.usage input_tokens output_tokens total_tokens none none) s
      else s

/-- The `reasoning_content` handling inside the delta branch
(lines 493-515). -/
def handleReasoning (delta : Json) (s : ProtocolStreamState) : ProtocolStreamState :=
  match (delta.get "reasoning_content").bind Json.asStr with
  | none => s
  | some reasoning_content =>
      if reasoning_content = "" then s
      else
        let s :=
          if s.reasoning_started then s
          else
            pushEvent (.reasoningStart mkReasoningId none)
              { s with reasoning_started := true, reasoning_id := some mkReasoningId }
        match s.reasoning_id with
        | some id => pushEvent (.reasoningDelta id reasoning_content none) s
        | none => s

/-- The tail of the delta branch of the `choices` handling (lines 492-523):
reasoning handling, the text-content push, and the tool-delta accumulation,
after the TextStart decision has been applied to the state. -/
def deltaTail (delta : Json) (s : ProtocolStreamState) : ProtocolStreamState :=
  let s := handleReasoning delta s
  let s :=
    match (delta.get "content").bind Json.asStr with
    | some content => pushEvent (.textDelta content) s
    | none => s
  parseToolDelta delta s

/-- The `choices` handling of `parse_stream_event` (lines 481-525). -/
def handleChoices (v : Json) (s : ProtocolStreamState) : ProtocolStreamState :=
  match ((v.get "choices").bind Json.asArr).bind List.head? with
  | none => s
  | some choice =>
      let s :=
        match (choice.get "finish_reason").bind Json.asStr with
        | some fr => { s with finish_reason := some fr }
        | none => s
      match choice.get "delta" with
      | none => s
      | some delta =>
          let s :=
            if s.text_started then s
            else pushEvent .textStart { s with text_started := true }
          deltaTail delta s

/-- Closing an open reasoning channel: push `ReasoningEnd` under the stored
id and clear the started flag (lines 434-442 and 531-539, identical code). -/
def closeReasoning (s : ProtocolStreamState) : ProtocolStreamState :=
  if s.reasoning_started then
    let s :=
      match s.reasoning_id with
      | some id => pushEvent (.reasoningEnd id) s
      | none => s
    { s with reasoning_started := false }
  else s

/-- The state mutations of the `[DONE]` branch of `parse_stream_event`
(lines 432-442). -/
def doneCore (s : ProtocolStreamState) : ProtocolStreamState :=
  closeReasoning (emitToolCalls true s)

/-- The state mutations of the JSON-payload branch of `parse_stream_event`
(lines 455-539). -/
def payloadCore (v : Json) (s : ProtocolStreamState) : ProtocolStreamState :=
  let s := handleUsage v s
  let s := handleChoices v s
  let s := if s.finish_reason = some "tool_calls" then emitToolCalls false s else s
  if s.finish_reason.isSome ∧ s.reasoning_started then closeReasoning s else s

/-- `OpenAiProtocol::parse_stream_event`.  The `_event_type` parameter of the
source is unused there and omitted here. -/
def parseStreamEvent (data : ChunkData) (s : ProtocolStreamState) :
    Except String (Option StreamEvent) × ProtocolStreamState :=
  match data with
  | .done =>
      let s := doneCore s
      match s.pending_events with
      | e :: rest => (.ok (some e), { s with pending_events := rest })
      | [] => (.ok (some (.done s.finish_reason)), s)
  | .malformed => (.error "expected value", s)
  | .payload v =>
      let s := payloadCore v s
      match s.pending_events with
      | e :: rest => (.ok (some e), { s with pending_events := rest })
      | [] => (.ok none, s)

/-! ### Driving a stream

The caller contract (spec §4.2, and the repository's own tests): submit one
chunk, collect the returned event, then drain `pending_events` before the
next chunk. -/

/-- One chunk submission followed by a full drain of `pending_events`:
returns the events observed for this chunk, in order, and the state for the
next chunk.  A chunk rejected with a parse error yields no events and leaves
the state untouched. -/
def processChunk (s : ProtocolStreamState) (c : ChunkData) :
    List StreamEvent × ProtocolStreamState :=
  match parseStreamEvent c s with
  | (.ok (some e), s') => (e :: s'.pending_events, { s' with pending_events := [] })
  | (.ok none, s') => (s'.pending_events, { s' with pending_events := [] })
  | (.error _, s') => ([], s')

/-- Feed a list of chunks from a given state, concatenating the observed
events. -/
def runSteps (s : ProtocolStreamState) : List ChunkData → List StreamEvent
  | [] => []
  | c :: cs =>
      let (evs, s') := processChunk s c
      evs ++ runSteps s' cs

/-- The event sequence of one whole stream started from a fresh state. -/
def runStream (cs : List ChunkData) : List StreamEvent :=
  runSteps initState cs

/-- The final state of a stream started from a fresh state. -/
def runStreamState (cs : List ChunkData) : ProtocolStreamState :=
  cs.foldl (fun s c => (processChunk s c).2) initState

/-! ### `OpenAiProtocol::build_headers` (openai_protocol.rs lines 549-566) -/

/-- Generic association-list lookup, first match (`HashMap::get`). -/
def alistGet {β : Type} (k : String) : List (String × β) → Option β
  | [] => none
  | (k', v) :: rest => if k' = k then some v else alistGet k rest

/-- `HashMap::insert`: replace the value at an existing key in place, else
append the binding. -/
def alistPut {β : Type} (k : String) (v : β) : List (String × β) → List (String × β)
  | [] => [(k, v)]
  | (k', w) :: rest =>
      if k' = k then (k', v) :: rest else (k', w) :: alistPut k v rest

/-- `OpenAiProtocol::build_headers`.  The extra-headers `HashMap` is supplied
as an association list; its keys are unique in the source (`HashMap`
invariant), which theorems assume through a `Nodup` hypothesis. -/
def buildHeaders (api_key : Option String) (oauth_token : Option String)
    (extra_headers : Option (List (String × String))) : List (String × String) :=
  let headers : List (String × String) := []
  let headers := alistPut "Content-Type" "application/json" headers
  let headers :=
    match (match oauth_token with | some t => some t | none => api_key) with
    | some token => alistPut "Authorization" ("Bearer " ++ token) headers
    | none => headers
  match extra_headers with
  | some extra => extra.foldl (fun hs kv => alistPut kv.1 kv.2 hs) headers
  | none => headers

/-! ### Provider / model registry (`llm/models/model_registry.rs`,
`llm/providers/provider_registry.rs`, types from `llm/types.rs`)

Only the fields the embedded routines actually read are carried (the
remaining `ProviderConfig` / `CustomProviderConfig` / `ModelConfig` fields
are configuration payload never inspected by `provider_available` or
`get_model_provider`). -/

/-- `AuthType` from `llm/types.rs`. -/
inductive AuthType where
  | none : AuthType
  | bearer : AuthType
  | apiKey : AuthType
  | oauthBearer : AuthType
  | talkCodyJwt : AuthType
deriving DecidableEq, Repr

/-- `ProviderConfig` (fields read by the embedded registry routines). -/
structure ProviderConfig where
  id : String
  name : String
  supports_oauth : Bool
  auth_type : AuthType
deriving Repr

/-- `CustomProviderConfig` (fields read by the embedded registry routines). -/
structure CustomProviderConfig where
  id : String
  name : String
  enabled : Bool
deriving Repr

/-- `CustomProvidersConfiguration`: custom providers keyed by id. -/
structure CustomProvidersConfiguration where
  providers : List (String × CustomProviderConfig)
deriving Repr

/-- `ModelConfig` (fields read by `get_model_provider`). -/
structure ModelConfig where
  name : String
  providers : List String
deriving Repr

/-- `ModelsConfiguration`: the model catalogue keyed by model key. -/
structure ModelsConfiguration where
  models : List (String × ModelConfig)
deriving Repr

/-- `ProviderRegistry::provider(id)`: lookup in the built-in provider map.
The registry `HashMap` is modelled as the list of configurations. -/
def registryProvider (reg : List ProviderConfig) (provider_id : String) :
    Option ProviderConfig :=
  reg.find? (fun p => p.id == provider_id)

/-- The custom-provider fallthrough at the end of
`ModelRegistry::provider_available` (model_registry.rs lines 202-206). -/
def customFallback (provider_id : String) (customs : CustomProvidersConfiguration) : Bool :=
  match alistGet provider_id customs.providers with
  | some custom => custom.enabled
  | none => false

/-- `ModelRegistry::provider_available` (model_registry.rs lines 174-207). -/
def providerAvailable (provider_id : String) (api_keys : List (String × String))
    (reg : List ProviderConfig) (customs : CustomProvidersConfiguration) : Bool :=
  match registryProvider reg provider_id with
  | some provider =>
      if provider.auth_type = AuthType.none then
        if provider_id = "ollama" ∨ provider_id = "lmstudio" then
          match alistGet provider_id api_keys with
          | some v => v == "enabled"
          | none => false
        else true
      else if (alistGet provider_id api_keys).isSome then true
      else if provider.supports_oauth &&
          (match alistGet provider_id api_keys with
           | some token => (trimStr token) != ""
           | none => false) then true
      else customFallback provider_id customs
  | none => customFallback provider_id customs

/-- `str::split('@')` on the identifier's character list. -/
def splitOnAtChar : List Char → List (List Char)
  | [] => [[]]
  | c :: rest =>
      if c = '@' then [] :: splitOnAtChar rest
      else
        match splitOnAtChar rest with
        | [] => [[c]]
        | p :: ps => (c :: p) :: ps

/-- The non-override resolution path of `ModelRegistry::get_model_provider`
(model_registry.rs lines 145-171): catalogue providers in declared order,
then built-in registry order, then the first enabled custom provider.
`ProviderRegistry::providers()` iterates a `HashMap`; its order is modelled
by the registry list order. -/
def resolveNoOverride (model_identifier : String) (api_keys : List (String × String))
    (reg : List ProviderConfig) (customs : CustomProvidersConfiguration)
    (config : ModelsConfiguration) : Except String (String × String) :=
  match alistGet model_identifier config.models with
  | some model_cfg =>
      match model_cfg.providers.find? (fun pid => providerAvailable pid api_keys reg customs) with
      | some pid => .ok (model_identifier, pid)
      | none => .error ("No available provider for model " ++ model_identifier)
  | none =>
      match (reg.map (fun p => p.id)).find? (fun pid => providerAvailable pid api_keys reg customs) with
      | some pid => .ok (model_identifier, pid)
      | none =>
          match customs.providers.find? (fun kv => kv.2.enabled) with
          | some kv => .ok (model_identifier, kv.1)
          | none => .error ("No available provider for model " ++ model_identifier)

/-- `ModelRegistry::get_model_provider` (model_registry.rs lines 133-172). -/
def getModelProvider (model_identifier : String) (api_keys : List (String × String))
    (reg : List ProviderConfig) (customs : CustomProvidersConfiguration)
    (config : ModelsConfiguration) : Except String (String × String) :=
  match splitOnAtChar model_identifier.data with
  | [before, after] => .ok (String.mk before, String.mk after)
  | _ => resolveNoOverride model_identifier api_keys reg customs config

/-! ### Canonical messages and `OpenAiProtocol::build_request`
(openai_protocol.rs lines 9-228 and 365-424)

The `f32` sampling parameters are carried opaquely by `build_request`
(inserted into the body, never computed with); they are modelled as
integers. -/

/-- `ContentPart` from `llm/types.rs`. -/
inductive ContentPart where
  | text (text : String) : ContentPart
  | image (image : String) : ContentPart
  | toolCall (tool_call_id : String) (tool_name : String) (input : Json) : ContentPart
  | toolResult (tool_call_id : String) (tool_name : String) (output : Json) : ContentPart
  | reasoning (text : String) (provider_options : Option Json) : ContentPart

/-- `MessageContent` from `llm/types.rs`. -/
inductive MessageContent where
  | text (s : String) : MessageContent
  | parts (ps : List ContentPart) : MessageContent

/-- `Message` from `llm/types.rs`. -/
inductive Message where
  | system (content : String) (provider_options : Option Json) : Message
  | user (content : MessageContent) (provider_options : Option Json) : Message
  | assistant (content : MessageContent) (provider_options : Option Json) : Message
  | tool (content : List ContentPart) (provider_options : Option Json) : Message

/-- `ToolDefinition` from `llm/types.rs`. -/
structure ToolDefinition where
  tool_type : String
  name : String
  description : Option String
  parameters : Json
  strict : Bool

/-- `json!` of an `Option<String>`. -/
def optStrJson : Option String → Json
  | some s => .str s
  | none => .null

/-- `OpenAiProtocol::convert_content`. -/
def convertContent : MessageContent → Json
  | .text t => .str t
  | .parts ps =>
      .arr (ps.foldl
        (fun mapped p =>
          match p with
          | .text t => mapped ++ [Json.obj [("type", .str "text"), ("text", .str t)]]
          | .image img =>
              mapped ++ [Json.obj [("type", .str "image_url"),
                ("image_url", .obj [("url", .str ("data:image/png;base64," ++ img))])]]
          | .toolCall tool_call_id tool_name input =>
              mapped ++ [Json.obj [("type", .str "tool_call"), ("id", .str tool_call_id),
                ("function", .obj [("name", .str tool_name),
                  ("arguments", .str input.render)])]]
          | .toolResult _ _ _ => mapped
          | .reasoning t _ =>
              if trimStr t = "" then mapped
              else mapped ++ [Json.obj [("type", .str "text"), ("text", .str t)]])
        [])

/-- `OpenAiProtocol::build_assistant_message`. -/
def buildAssistantMessage (content : MessageContent) (provider_options : Option Json) : Json :=
  let content_value :=
    match content with
    | .text t => if trimStr t ≠ "" then Json.str t else Json.null
    | .parts ps =>
        let folded := ps.foldl
          (fun (st : List String × List Json × Bool) p =>
            let (text_chunks, rich_parts, has_image) := st
            match p with
            | .text t =>
                if trimStr t ≠ "" then
                  (text_chunks ++ [t],
                   rich_parts ++ [Json.obj [("type", .str "text"), ("text", .str t)]],
                   has_image)
                else st
            | .reasoning t _ =>
                if trimStr t ≠ "" then
                  (text_chunks ++ [t],
                   rich_parts ++ [Json.obj [("type", .str "text"), ("text", .str t)]],
                   has_image)
                else st
            | .image img =>
                (text_chunks,
                 rich_parts ++ [Json.obj [("type", .str "image_url"),
                   ("image_url", .obj [("url", .str ("data:image/png;base64," ++ img))])]],
                 true)
            | .toolCall _ _ _ => st
            | .toolResult _ _ _ => st)
          ([], [], false)
        let (text_chunks, rich_parts, has_image) := folded
        if has_image then Json.arr rich_parts
        else if text_chunks ≠ [] then Json.str (String.join text_chunks)
        else Json.null
  let message := Json.obj [("role", .str "assistant"), ("content", content_value)]
  let message :=
    match content with
    | .parts ps =>
        let tool_calls := ps.foldl
          (fun (acc : List Json) p =>
            match p with
            | .toolCall tool_call_id tool_name input =>
                if trimStr tool_name = "" then acc
                else
                  let arguments :=
                    if input.isObj ∨ input.isArrB ∨ input.isStrB ∨ input.isNumB ∨
                        input.isBoolB ∨ input.isNullB then
                      input.render
                    else "\x7b\x7d"
                  acc ++ [Json.obj [("id", .str tool_call_id), ("type", .str "function"),
                    ("function", .obj [("name", .str tool_name),
                      ("arguments", .str arguments)])]]
            | _ => acc)
          []
        if tool_calls.isEmpty then message
        else message.setField "tool_calls" (Json.arr tool_calls)
    | _ => message
  match provider_options with
  | some options =>
      match options.get "openaiCompatible" with
      | some openai_compat =>
          match openai_compat.get "reasoning_content" with
          | some reasoning_content => message.setField "reasoning_content" reasoning_content
          | none => message
      | none => message
  | none => message

/-- `OpenAiProtocol::tool_output_to_string`. -/
def toolOutputToString (output : Json) : String :=
  match (output.get "value").bind Json.asStr with
  | some value => value
  | none => output.render

/-- `OpenAiProtocol::build_messages`. -/
def buildMessages (messages : List Message) : List Json :=
  messages.foldl
    (fun result msg =>
      match msg with
      | .system content _ =>
          result ++ [Json.obj [("role", .str "system"), ("content", .str content)]]
      | .user content _ =>
          result ++ [Json.obj [("role", .str "user"), ("content", convertContent content)]]
      | .assistant content provider_options =>
          result ++ [buildAssistantMessage content provider_options]
      | .tool content _ =>
          result ++ content.foldl
            (fun tool_results part =>
              match part with
              | .toolResult tool_call_id _ output =>
                  tool_results ++ [Json.obj [("tool_call_id", .str tool_call_id),
                    ("role", .str "tool"), ("content", .str (toolOutputToString output))]]
              | _ => tool_results)
            [])
    []

/-- `OpenAiProtocol::build_tools`. -/
def buildTools : Option (List ToolDefinition) → Option (List Json)
  | none => none
  | some tools =>
      some (tools.foldl
        (fun result tool =>
          result ++ [Json.obj [("type", .str "function"),
            ("function", .obj [("name", .str tool.name),
              ("description", optStrJson tool.description),
              ("parameters", tool.parameters)])]])
        [])

/-- `OpenAiProtocol::build_request` (openai_protocol.rs lines 365-424). -/
def buildRequest (model : String) (messages : List Message)
    (tools : Option (List ToolDefinition)) (temperature : Option Int)
    (max_tokens : Option Int) (top_p : Option Int) (top_k : Option Int)
    (provider_options : Option Json) (extra_body : Option Json) :
    Except String Json :=
  let body := Json.obj
    [("model", .str model),
     ("messages", .arr (buildMessages messages)),
     ("stream", .bool true),
     ("stream_options", .obj [("include_usage", .bool true)])]
  let body :=
    match buildTools tools with
    | some ts => body.setField "tools" (.arr ts)
    | none => body
  let body :=
    match temperature with
    | some t => body.setField "temperature" (.num t)
    | none => body
  let body :=
    match max_tokens with
    | some mt => body.setField "max_tokens" (.num mt)
    | none => body
  let body :=
    match top_p with
    | some tp => body.setField "top_p" (.num tp)
    | none => body
  let body :=
    match top_k with
    | some tk => body.setField "top_k" (.num tk)
    | none => body
  let body :=
    match provider_options with
    | some options =>
        let body :=
          match options.get "openai" with
          | some openai_opts =>
              match openai_opts.get "reasoningEffort" with
              | some reasoning => body.setField "reasoning_effort" reasoning
              | none => body
          | none => body
        match options.get "openrouter" with
        | some openrouter_opts =>
            match openrouter_opts.get "effort" with
            | some effort => body.setField "reasoning" (.obj [("effort", effort)])
            | none => body
        | none => body
    | none => body
  let body :=
    match extra_body with
    | some extra =>
        match extra with
        | .obj extra_fields => extra_fields.foldl (fun b kv => b.setField kv.1 kv.2) body
        | _ => body
    | none => body
  .ok body

/-! ### Event classifiers and stream-level observations -/

def isTextStartEv : StreamEvent → Bool
  | .textStart => true
  | _ => false

def isTextDeltaEv : StreamEvent → Bool
  | .textDelta _ => true
  | _ => false

def isToolCallEv : StreamEvent → Bool
  | .toolCall _ _ _ => true
  | _ => false

def isReasoningStartEv : StreamEvent → Bool
  | .reasoningStart _ _ => true
  | _ => false

def isReasoningDeltaEv : StreamEvent → Bool
  | .reasoningDelta _ _ _ => true
  | _ => false

def isReasoningEndEv : StreamEvent → Bool
  | .reasoningEnd _ => true
  | _ => false

def isUsageEv : StreamEvent → Bool
  | .usage _ _ _ _ _ => true
  | _ => false

def isDoneEv : StreamEvent → Bool
  | .done _ => true
  | _ => false

/-- The events named by the TextStart ordering property: TextDelta, ToolCall,
ReasoningStart. -/
def interestingEv (e : StreamEvent) : Bool :=
  isTextDeltaEv e || isToolCallEv e || isReasoningStartEv e

/-- Every event produced by delta handling: text, tool-call and reasoning
events. -/
def deltaDerivedEv (e : StreamEvent) : Bool :=
  isTextDeltaEv e || isToolCallEv e || isReasoningStartEv e ||
    isReasoningDeltaEv e || isReasoningEndEv e

/-- No TextStart anywhere in the list. -/
def noTS (l : List StreamEvent) : Bool :=
  l.all (fun e => !isTextStartEv e)

/-- Some TextStart in the list. -/
def hasTS (l : List StreamEvent) : Bool :=
  l.any isTextStartEv

/-- Scanning from the front: no event satisfying `bad` occurs strictly
before the first TextStart. -/
def scanBefore (bad : StreamEvent → Bool) : List StreamEvent → Bool
  | [] => true
  | e :: rest => if isTextStartEv e then true else !bad e && scanBefore bad rest

/-- At most one TextStart in the list. -/
def atMostOneTS : List StreamEvent → Bool
  | [] => true
  | e :: rest => if isTextStartEv e then noTS rest else atMostOneTS rest

/-- Whether a successfully decoded chunk payload carries a delta in its
first choice (the condition guarding the TextStart emission). -/
def chunkDeltaJson (v : Json) : Bool :=
  ((((v.get "choices").bind Json.asArr).bind List.head?).bind (fun c => c.get "delta")).isSome

/-- Whether a chunk carries a delta. -/
def chunkHasDelta : ChunkData → Bool
  | .payload v => chunkDeltaJson v
  | _ => false

/-- Number of `'@'` characters in a character list. -/
def countAt : List Char → Nat
  | [] => 0
  | c :: rest => (if c = '@' then 1 else 0) + countAt rest

/-- The C8 claim's availability condition, following the spec's words: the
credential map holds an entry for the provider id whose value is present
and non-empty. -/
def credPresentNonEmpty (provider_id : String) (api_keys : List (String × String)) : Bool :=
  match alistGet provider_id api_keys with
  | some v => v != ""
  | none => false

/-- The reported prompt-token count of a usage sub-object
(`prompt_tokens` read through `as_i64`, defaulting to `0`). -/
def usagePrompt (u : Json) : Int :=
  ((u.get "prompt_tokens").bind Json.asInt).getD 0

/-- The reported completion-token count of a usage sub-object. -/
def usageCompletion (u : Json) : Int :=
  ((u.get "completion_tokens").bind Json.asInt).getD 0

/-- The explicit total-token count of a usage sub-object, when present. -/
def usageTotal (u : Json) : Option Int :=
  (u.get "total_tokens").bind Json.asInt

/-- The usage events contributed by one chunk payload (empty when there is
no usage sub-object or no meaningful data). -/
def usageEvsOf (v : Json) : List StreamEvent :=
  match v.get "usage" with
  | none => []
  | some u =>
      if 0 < usagePrompt u ∨ 0 < usageCompletion u ∨ 0 < (usageTotal u).getD 0 then
        [.usage (usagePrompt u) (usageCompletion u) (usageTotal u) none none]
      else []

/-- One tool-call delta for a single logical call: positional index, id
(`""` meaning absent), function name (`""` meaning absent) and argument
fragment (`""` meaning absent).  The OpenAI wire shape treats an absent
`id`/`name`/`arguments` field and an empty-string one identically, so plain
strings suffice. -/
structure ToolDeltaSpec where
  idx : Nat
  id : String
  name : String
  args : String
deriving DecidableEq

/-- The wire JSON of one tool-call delta entry. -/
def mkToolEntry (d : ToolDeltaSpec) : Json :=
  .obj [("index", .num (Int.ofNat d.idx)), ("id", .str d.id),
        ("function", .obj [("name", .str d.name), ("arguments", .str d.args)])]

/-- A stream chunk whose only content is one tool-call delta entry. -/
def mkToolChunk (d : ToolDeltaSpec) : Json :=
  .obj [("choices", .arr [.obj [("delta", .obj [("tool_calls", .arr [mkToolEntry d])])]])]

/-- The function name after folding a sequence of deltas over a starting
name: a non-empty delta name overwrites, an empty one is ignored. -/
def finalName (nm : String) (rest : List ToolDeltaSpec) : String :=
  rest.foldl (fun acc d => if d.name ≠ "" then d.name else acc) nm

/-- The argument text after concatenating a sequence of fragments, in
arrival order, onto an accumulated prefix. -/
def concatFrom (frags : String) (rest : List ToolDeltaSpec) : String :=
  rest.foldl (fun acc d => acc ++ d.args) frags

/-- The input value carried by an emitted ToolCall for accumulated argument
text: the JSON parse of the concatenation, falling back to the raw string
when it does not parse, and the empty object when the text is blank. -/
def toolCallInput (cat : String) : Json :=
  if trimStr cat = "" then .obj []
  else
    match jsonParse cat with
    | some v => v
    | none => .str cat

/-- The state invariant maintained while accumulating one logical tool
call whose first delta carried index `i` and id `c`: the index is mapped to
`c`, one accumulator holds the call (name `nm`, argument text `frags`), the
emission-order list holds `c` at slot `i`, nothing has been emitted, and
the stream is inside its text phase with no finish reason observed. -/
def ToolInv (i : Nat) (c nm frags : String) (s : ProtocolStreamState) : Prop :=
  s.pending_events = [] ∧
  s.tool_call_index_map = [(i, c)] ∧
  s.tool_calls = [(c, ⟨c, nm, frags⟩)] ∧
  s.tool_call_order = List.replicate i "" ++ [c] ∧
  s.emitted_tool_calls = [] ∧
  s.reasoning_started = false ∧
  s.text_started = true ∧
  s.finish_reason = none

end TalkCody

namespace TalkCody

/-! ## Claim C6: a malformed chunk is a hard error that leaves the whole
state untouched -/

/-- C6: for every chunk text that is not the `[DONE]` sentinel and does not
parse as JSON (`ChunkData.malformed`), `parse_stream_event` returns an error
and the entire `ProtocolStreamState` — accumulators, index map, emission
order, emitted set, lifecycle flags, finish reason and pending queue — is
exactly the state before the call. -/
theorem c6_malformed_chunk_error_state_unchanged (s : ProtocolStreamState) :
    parseStreamEvent ChunkData.malformed s = (Except.error "expected value", s) := rfl

/-! ## Claim C7: `build_request` never fails on application-supplied content -/

/-- C7: for every model string, message list, tool definitions, sampling
parameters, provider options and extra body, the OpenAI-dialect
`build_request` returns `Ok` with a serialized request body. -/
theorem c7_build_request_never_fails (model : String) (messages : List Message)
    (tools : Option (List ToolDefinition)) (temperature : Option Int)
    (max_tokens : Option Int) (top_p : Option Int) (top_k : Option Int)
    (provider_options : Option Json) (extra_body : Option Json) :
    ∃ body, buildRequest model messages tools temperature max_tokens top_p top_k
      provider_options extra_body = Except.ok body := by
  exists
    (buildRequest model messages tools temperature max_tokens top_p top_k
      provider_options extra_body).toOption.getD Json.null

/-! ## Claim C9: extra headers are applied last and override computed
headers -/

theorem alistGet_put_self {β : Type} (k : String) (v : β) (m : List (String × β)) :
    alistGet k (alistPut k v m) = some v := by
  induction m with
  | nil => simp [alistGet, alistPut]
  | cons hd tl ih =>
      obtain ⟨k', w⟩ := hd
      by_cases h : k' = k
      · simp [alistGet, alistPut, h]
      · simp [alistGet, alistPut, h, ih]

theorem alistGet_put_other {β : Type} {k k' : String} (v : β) (m : List (String × β))
    (h : k' ≠ k) : alistGet k (alistPut k' v m) = alistGet k m := by
  induction m with
  | nil => simp [alistGet, alistPut, h]
  | cons hd tl ih =>
      obtain ⟨k'', w⟩ := hd
      by_cases h2 : k'' = k'
      · subst h2
        simp [alistGet, alistPut, h]
      · simp [alistGet, alistPut, h2, ih]

theorem alistGet_fold_put_not_mem {β : Type} {k : String} (extra : List (String × β))
    (m : List (String × β)) (h : k ∉ extra.map Prod.fst) :
    alistGet k (extra.foldl (fun hs kv => alistPut kv.1 kv.2 hs) m) = alistGet k m := by
  induction extra generalizing m with
  | nil => rfl
  | cons hd tl ih =>
      obtain ⟨k', v⟩ := hd
      simp only [List.map_cons, List.mem_cons] at h
      push_neg at h
      simp only [List.foldl]
      rw [ih (alistPut k' v m) h.2, alistGet_put_other v m (Ne.symm h.1)]

theorem alistGet_fold_put_mem {β : Type} {k : String} {v : β} (extra : List (String × β))
    (m : List (String × β)) (hnd : (extra.map Prod.fst).Nodup)
    (hget : alistGet k extra = some v) :
    alistGet k (extra.foldl (fun hs kv => alistPut kv.1 kv.2 hs) m) = some v := by
  induction extra generalizing m with
  | nil => simp [alistGet] at hget
  | cons hd tl ih =>
      obtain ⟨k', w⟩ := hd
      simp only [List.map_cons, List.nodup_cons] at hnd
      simp only [alistGet] at hget
      by_cases h : k' = k
      · subst h
        simp only [if_pos rfl] at hget
        cases hget
        simp only [List.foldl]
        rw [alistGet_fold_put_not_mem tl _ hnd.1, alistGet_put_self]
      · simp only [if_neg h] at hget
        simp only [List.foldl]
        exact ih (alistPut k' w m) hnd.2 hget

/-- C9: in `build_headers` the `extra_headers` entries are applied last and
take precedence: whenever `extra_headers` carries a binding for
`"Authorization"` or `"Content-Type"`, the returned header map carries the
extra-headers value for that key, replacing the computed bearer value and
the default content type. -/
theorem c9_extra_headers_override (api_key oauth_token : Option String)
    (extra : List (String × String)) (k v : String)
    (_hk : k = "Authorization" ∨ k = "Content-Type")
    (hnd : (extra.map Prod.fst).Nodup)
    (hget : alistGet k extra = some v) :
    alistGet k (buildHeaders api_key oauth_token (some extra)) = some v := by
  simp only [buildHeaders]
  exact alistGet_fold_put_mem extra _ hnd hget

/-- Witness for C9 at a concrete input: extra headers overriding both the
bearer authorization derived from an oauth token and the default content
type. -/
theorem c9_extra_headers_override_witness :
    alistGet "Authorization"
      (buildHeaders (some "apikey") (some "oauthtoken")
        (some [("Authorization", "Custom xyz"), ("Content-Type", "text/plain")])) =
      some "Custom xyz" :=
  c9_extra_headers_override (some "apikey") (some "oauthtoken")
    [("Authorization", "Custom xyz"), ("Content-Type", "text/plain")]
    "Authorization" "Custom xyz" (Or.inl rfl) (by decide) (by decide)

/-! ## Claim C10: the `model@provider` override fires exactly when the
identifier contains exactly one `'@'` -/

theorem splitOnAtChar_ne_nil (l : List Char) : splitOnAtChar l ≠ [] := by
  cases l with
  | nil => simp [splitOnAtChar]
  | cons c rest =>
      simp only [splitOnAtChar]
      by_cases h : c = '@'
      · simp [h]
      · simp only [if_neg h]
        cases hs : splitOnAtChar rest with
        | nil => simp
        | cons p ps => simp

theorem splitOnAtChar_count_zero {l : List Char} (h : countAt l = 0) :
    splitOnAtChar l = [l] := by
  induction l with
  | nil => rfl
  | cons c rest ih =>
      simp only [countAt] at h
      by_cases hc : c = '@'
      · simp [hc] at h
      · simp only [if_neg hc, Nat.zero_add] at h
        simp [splitOnAtChar, if_neg hc, ih h]

theorem splitOnAtChar_count_one {l : List Char} (h : countAt l = 1) :
    ∃ l1 l2, l = l1 ++ '@' :: l2 ∧ countAt l1 = 0 ∧ countAt l2 = 0 ∧
      splitOnAtChar l = [l1, l2] := by
  induction l with
  | nil => simp [countAt] at h
  | cons c rest ih =>
      simp only [countAt] at h
      by_cases hc : c = '@'
      · subst hc
        rw [if_pos rfl] at h
        have hrest : countAt rest = 0 := by omega
        refine ⟨[], rest, by simp, rfl, hrest, ?_⟩
        simp [splitOnAtChar, splitOnAtChar_count_zero hrest]
      · simp only [if_neg hc, Nat.zero_add] at h
        obtain ⟨l1, l2, heq, h1, h2, hsplit⟩ := ih h
        refine ⟨c :: l1, l2, by simp [heq], ?_, h2, ?_⟩
        · simp [countAt, if_neg hc, h1]
        · simp [splitOnAtChar, if_neg hc, hsplit]

theorem splitOnAtChar_length (l : List Char) :
    (splitOnAtChar l).length = countAt l + 1 := by
  induction l with
  | nil => rfl
  | cons c rest ih =>
      simp only [splitOnAtChar, countAt]
      by_cases hc : c = '@'
      · simp [hc, ih, Nat.add_comm]
      · simp only [if_neg hc]
        cases hs : splitOnAtChar rest with
        | nil => exact absurd hs (splitOnAtChar_ne_nil rest)
        | cons p ps =>
            rw [hs] at ih
            simp only [List.length_cons] at ih ⊢
            omega

/-- C10: `get_model_provider` treats the identifier as an explicit
`model@provider` override exactly when it contains exactly one `'@'`: with
one `'@'` it returns the parts before and after the `'@'` verbatim, and with
zero or two-or-more `'@'` characters it is not split but resolved through
the model catalogue, the registry and the enabled custom providers
(`resolveNoOverride`). -/
theorem c10_at_split_exactly_one (model_identifier : String)
    (api_keys : List (String × String)) (reg : List ProviderConfig)
    (customs : CustomProvidersConfiguration) (config : ModelsConfiguration) :
    (countAt model_identifier.data = 1 →
      ∃ l1 l2, model_identifier.data = l1 ++ '@' :: l2 ∧
        countAt l1 = 0 ∧ countAt l2 = 0 ∧
        getModelProvider model_identifier api_keys reg customs config =
          Except.ok (String.mk l1, String.mk l2)) ∧
    (countAt model_identifier.data ≠ 1 →
      getModelProvider model_identifier api_keys reg customs config =
        resolveNoOverride model_identifier api_keys reg customs config) := by
  constructor
  · intro h
    obtain ⟨l1, l2, heq, h1, h2, hsplit⟩ := splitOnAtChar_count_one h
    exact ⟨l1, l2, heq, h1, h2, by simp [getModelProvider, hsplit]⟩
  · intro h
    have hlen : (splitOnAtChar model_identifier.data).length ≠ 2 := by
      rw [splitOnAtChar_length]
      omega
    simp only [getModelProvider]
    cases hs : splitOnAtChar model_identifier.data with
    | nil => rfl
    | cons p ps =>
        cases ps with
        | nil => rfl
        | cons q qs =>
            cases qs with
            | nil => rw [hs] at hlen; simp at hlen
            | cons r rs => rfl

/-- Witness for C10 at a concrete input: `"gpt-4o@openai"` contains exactly
one `'@'` and is split verbatim without any availability check. -/
theorem c10_at_split_exactly_one_witness :
    countAt ("gpt-4o@openai" : String).data = 1 ∧
      ∃ l1 l2, ("gpt-4o@openai" : String).data = l1 ++ '@' :: l2 ∧
        countAt l1 = 0 ∧ countAt l2 = 0 ∧
        getModelProvider "gpt-4o@openai" [] [] ⟨[]⟩ ⟨[]⟩ =
          Except.ok (String.mk l1, String.mk l2) :=
  ⟨by decide, (c10_at_split_exactly_one "gpt-4o@openai" [] [] ⟨[]⟩ ⟨[]⟩).1 (by decide)⟩

/-! ## Claim C8: availability of a built-in provider that requires
authentication -/

/-- Counterexample to C8 as stated: a built-in Bearer provider whose
credential entry holds the empty string is judged available by
`provider_available` (which only checks `is_some()`), while the claim
demands unavailability for an empty credential. -/
theorem c8_counterexample_empty_credential :
    providerAvailable "p" [("p", "")]
        [{ id := "p", name := "p", supports_oauth := false, auth_type := AuthType.bearer }]
        ⟨[]⟩ = true ∧
      credPresentNonEmpty "p" [("p", "")] = false := by
  constructor <;> rfl

/-- C8 as amended: for a built-in provider whose auth type requires
authentication, the availability judgement returns true if and only if the
credential map holds an entry for its provider id — regardless of the
entry's value, including the empty string — or the provider id also appears
as an enabled custom provider. -/
theorem c8_amended_available_iff_entry_present (provider_id : String)
    (api_keys : List (String × String)) (reg : List ProviderConfig)
    (customs : CustomProvidersConfiguration) (cfg : ProviderConfig)
    (hreg : registryProvider reg provider_id = some cfg)
    (hauth : cfg.auth_type ≠ AuthType.none) :
    providerAvailable provider_id api_keys reg customs = true ↔
      ((alistGet provider_id api_keys).isSome = true ∨
        customFallback provider_id customs = true) := by
  simp only [providerAvailable, hreg]
  rw [if_neg hauth]
  cases hget : alistGet provider_id api_keys with
  | some tok => simp [hget]
  | none => simp [hget]

/-- Witness for C8 (amended) at a concrete input: a Bearer provider with a
present credential entry. -/
theorem c8_amended_available_iff_entry_present_witness :
    providerAvailable "openai" [("openai", "sk-key")]
        [{ id := "openai", name := "OpenAI", supports_oauth := false,
           auth_type := AuthType.bearer }] ⟨[]⟩ = true ↔
      ((alistGet "openai" [("openai", "sk-key")]).isSome = true ∨
        customFallback "openai" ⟨[]⟩ = true) :=
  c8_amended_available_iff_entry_present "openai" [("openai", "sk-key")]
    [{ id := "openai", name := "OpenAI", supports_oauth := false,
       auth_type := AuthType.bearer }] ⟨[]⟩
    { id := "openai", name := "OpenAI", supports_oauth := false,
      auth_type := AuthType.bearer }
    (by rfl) (by decide)

/-! ## Claim C2: the index-to-id association -/

theorem lookupNat_orInsert (i : Nat) (c : String) (m : List (Nat × String)) :
    lookupNat i (orInsertNat i c m) = some ((lookupNat i m).getD c) := by
  induction m with
  | nil => simp [lookupNat, orInsertNat]
  | cons hd tl ih =>
      obtain ⟨k, v⟩ := hd
      by_cases h : k = i
      · simp [lookupNat, orInsertNat, h]
      · simp [lookupNat, orInsertNat, h, ih]

/-- Counterexample to C2 as stated: after a delta carrying index `0` and id
`"a"`, a later delta carrying index `0` and the different non-empty id `"b"`
does not replace the stored id — the map still associates index `0` with
`"a"` (the source uses `entry(index).or_insert_with(...)`). -/
theorem c2_counterexample_later_id_does_not_replace :
    lookupNat 0 (runStreamState
      [ChunkData.payload (mkToolChunk ⟨0, "a", "f", "x"⟩),
       ChunkData.payload (mkToolChunk ⟨0, "b", "", ""⟩)]).tool_call_index_map =
        some "a" ∧
      lookupNat 0 (runStreamState
        [ChunkData.payload (mkToolChunk ⟨0, "a", "f", "x"⟩),
         ChunkData.payload (mkToolChunk ⟨0, "b", "", ""⟩)]).tool_call_index_map ≠
        some "b" := by
  constructor
  · rfl
  · decide

/-- C2 as amended: whenever `parse_tool_delta` processes a delta entry that
carries both a positional index and a non-empty id, the
`tool_call_index_map` afterwards associates that index with the first
non-empty id observed for it: the delta's id when the index was unmapped,
and the previously stored id otherwise (later ids never replace it). -/
theorem c2_amended_first_id_wins (entry : Json)
    (t : List (Nat × String) × List (String × ToolCallAccum) × List String)
    (i : Nat) (c : String)
    (hidx : (entry.get "index").bind Json.asNat = some i)
    (hid : ((entry.get "id").bind Json.asStr).getD "" = c)
    (hc : c ≠ "") :
    lookupNat i (parseToolEntryCore entry t).1 =
      some ((lookupNat i t.1).getD c) := by
  obtain ⟨indexMap, calls, order⟩ := t
  simp only [parseToolEntryCore, hidx, hid]
  simp only [ne_eq, hc, not_false_eq_true, if_true, if_pos]
  split
  · exact lookupNat_orInsert i c indexMap
  · split <;> exact lookupNat_orInsert i c indexMap

/-- Witness for C2 (amended) at a concrete input: a fresh triple and a delta
entry carrying index `3` and id `"call_9"`. -/
theorem c2_amended_first_id_wins_witness :
    lookupNat 3 (parseToolEntryCore (mkToolEntry ⟨3, "call_9", "f", ""⟩) ([], [], [])).1 =
      some ((lookupNat 3 ([] : List (Nat × String))).getD "call_9") :=
  c2_amended_first_id_wins (mkToolEntry ⟨3, "call_9", "f", ""⟩) ([], [], []) 3 "call_9"
    (by rfl) (by rfl) (by decide)

/-! ## Shape lemmas for the payload handlers

Each handler appends a characterized batch of events to `pending_events`
and touches a known set of state fields. -/

theorem handleUsage_spec (v : Json) (s : ProtocolStreamState) :
    handleUsage v s = { s with pending_events := s.pending_events ++ usageEvsOf v } := by
  cases hu : v.get "usage" with
  | none => simp [handleUsage, usageEvsOf, hu]
  | some u =>
      simp only [handleUsage, usageEvsOf, hu, usagePrompt, usageCompletion, usageTotal]
      split_ifs with h
      · simp [pushEvent]
      · simp

theorem countP_usageEvsOf (v : Json) (u : Json) (hu : v.get "usage" = some u) :
    (usageEvsOf v).countP (fun e => isUsageEv e) =
      (if 0 < usagePrompt u ∨ 0 < usageCompletion u ∨ 0 < (usageTotal u).getD 0
       then 1 else 0) := by
  simp only [usageEvsOf, hu]
  split_ifs with h
  · simp [List.countP_cons, isUsageEv]
  · simp

theorem usageEvsOf_kinds (v : Json) : ∀ e ∈ usageEvsOf v, isUsageEv e = true := by
  cases hu : v.get "usage" with
  | none => simp [usageEvsOf, hu]
  | some u =>
      simp only [usageEvsOf, hu]
      split_ifs with h
      · simp [isUsageEv]
      · simp

theorem parseToolDelta_spec (d : Json) (s : ProtocolStreamState) :
    ∃ im tc od,
      parseToolDelta d s =
        { s with tool_call_index_map := im, tool_calls := tc, tool_call_order := od } ∧
      (((d.get "tool_calls").bind Json.asArr) = none →
        im = s.tool_call_index_map ∧ tc = s.tool_calls ∧ od = s.tool_call_order) := by
  simp only [parseToolDelta]
  generalize h : (d.get "tool_calls").bind Json.asArr = arrOpt
  cases arrOpt with
  | none =>
      exact ⟨s.tool_call_index_map, s.tool_calls, s.tool_call_order, by simp,
        fun _ => ⟨rfl, rfl, rfl⟩⟩
  | some entries =>
      exact ⟨_, _, _, rfl, fun hc => Option.noConfusion hc⟩

theorem handleReasoning_spec (d : Json) (s : ProtocolStreamState) :
    ∃ l rs ri,
      handleReasoning d s =
        { s with pending_events := s.pending_events ++ l,
                 reasoning_started := rs, reasoning_id := ri } ∧
      (∀ e ∈ l, isReasoningStartEv e = true ∨ isReasoningDeltaEv e = true) := by
  cases hrc : (d.get "reasoning_content").bind Json.asStr with
  | none =>
      refine ⟨[], s.reasoning_started, s.reasoning_id, ?_, by simp⟩
      simp [handleReasoning, hrc]
  | some rc =>
      by_cases hempty : rc = ""
      · refine ⟨[], s.reasoning_started, s.reasoning_id, ?_, by simp⟩
        simp [handleReasoning, hrc, hempty]
      · by_cases hstart : s.reasoning_started
        · cases hid : s.reasoning_id with
          | none =>
              refine ⟨[], true, none, ?_, by simp⟩
              simp only [handleReasoning, hrc, if_neg hempty, hstart, if_true, hid,
                List.append_nil] <;> (ext <;> simp_all)
          | some id =>
              refine ⟨[.reasoningDelta id rc none], true, some id, ?_, ?_⟩
              · simp only [handleReasoning, hrc, if_neg hempty, hstart, if_true, hid,
                  pushEvent] <;> (ext <;> simp_all)
              · simp [isReasoningDeltaEv]
        · refine ⟨[.reasoningStart mkReasoningId none, .reasoningDelta mkReasoningId rc none],
            true, some mkReasoningId, ?_, ?_⟩
          · simp only [handleReasoning, hrc, if_neg hempty, hstart, if_false,
              pushEvent] <;> (ext <;> simp_all)
          · intro e he
            simp only [List.mem_cons, List.not_mem_nil] at he
            rcases he with h | h | h
            · subst h; simp [isReasoningStartEv]
            · subst h; simp [isReasoningDeltaEv]
            · cases h

theorem emitStep_spec (force : Bool) (s : ProtocolStreamState) (key : String) :
    ∃ l em,
      emitStep force s key =
        { s with pending_events := s.pending_events ++ l,
                 emitted_tool_calls := s.emitted_tool_calls ++ em } ∧
      (∀ e ∈ l, isToolCallEv e = true) := by
  simp only [emitStep]
  split_ifs with h1
  · exact ⟨[], [], by simp, by simp⟩
  · cases hacc : lookupAcc key s.tool_calls with
    | none => exact ⟨[], [], by simp, by simp⟩
    | some acc =>
        dsimp only
        split_ifs with h2 h3 h4
        · exact ⟨[], [], by simp, by simp⟩
        · exact ⟨[], [], by simp, by simp⟩
        · exact ⟨[.toolCall acc.tool_call_id acc.tool_name (Json.obj [])], [key],
            by simp [pushEvent], by simp [isToolCallEv]⟩
        · exact ⟨[.toolCall acc.tool_call_id acc.tool_name
              (match jsonParse acc.arguments with
               | some v => v
               | none => Json.str acc.arguments)], [key],
            by simp [pushEvent], by simp [isToolCallEv]⟩

theorem emitFold_spec (force : Bool) (keys : List String) (s : ProtocolStreamState) :
    ∃ l em,
      keys.foldl (emitStep force) s =
        { s with pending_events := s.pending_events ++ l,
                 emitted_tool_calls := s.emitted_tool_calls ++ em } ∧
      (∀ e ∈ l, isToolCallEv e = true) := by
  induction keys generalizing s with
  | nil => exact ⟨[], [], by simp, by simp⟩
  | cons k ks ih =>
      obtain ⟨l1, em1, h1, hk1⟩ := emitStep_spec force s k
      obtain ⟨l2, em2, h2, hk2⟩ := ih (emitStep force s k)
      refine ⟨l1 ++ l2, em1 ++ em2, ?_, ?_⟩
      · rw [List.foldl_cons, h2, h1]
        simp
      · intro e he
        rcases List.mem_append.mp he with h | h
        · exact hk1 e h
        · exact hk2 e h

theorem emitToolCalls_spec (force : Bool) (s : ProtocolStreamState) :
    ∃ l em,
      emitToolCalls force s =
        { s with pending_events := s.pending_events ++ l,
                 emitted_tool_calls := s.emitted_tool_calls ++ em } ∧
      (∀ e ∈ l, isToolCallEv e = true) :=
  emitFold_spec force s.tool_call_order s

theorem closeReasoning_spec (s : ProtocolStreamState) :
    ∃ l,
      closeReasoning s =
        { s with pending_events := s.pending_events ++ l, reasoning_started := false } ∧
      (∀ e ∈ l, isReasoningEndEv e = true) := by
  simp only [closeReasoning]
  split_ifs with h1
  · cases hid : s.reasoning_id with
    | none =>
        refine ⟨[], ?_, by simp⟩
        simp only [hid, List.append_nil] <;> (ext <;> simp_all)
    | some id =>
        refine ⟨[.reasoningEnd id], ?_, by simp [isReasoningEndEv]⟩
        simp only [hid, pushEvent]
  · refine ⟨[], ?_, by simp⟩
    simp only [List.append_nil] <;> (ext <;> simp_all [h1])

/-- Shape of `deltaTail`: it appends text/reasoning events and replaces the
tool accumulation fields. -/
theorem deltaTail_spec (delta : Json) (w : ProtocolStreamState) :
    ∃ l im tc od rs ri,
      deltaTail delta w =
        { w with pending_events := w.pending_events ++ l, tool_call_index_map := im,
                 tool_calls := tc, tool_call_order := od,
                 reasoning_started := rs, reasoning_id := ri } ∧
      (∀ e ∈ l, isTextDeltaEv e = true ∨ isReasoningStartEv e = true ∨
        isReasoningDeltaEv e = true) := by
  simp only [deltaTail]
  obtain ⟨l1, rs1, ri1, h1, k1⟩ := handleReasoning_spec delta w
  generalize hc : (delta.get "content").bind Json.asStr = contentOpt
  cases contentOpt with
  | none =>
      dsimp only
      rw [h1]
      obtain ⟨im, tc, od, h3, _⟩ := parseToolDelta_spec delta
        { w with pending_events := w.pending_events ++ l1,
                 reasoning_started := rs1, reasoning_id := ri1 }
      rw [h3]
      refine ⟨l1, im, tc, od, rs1, ri1, by ext <;> simp, ?_⟩
      intro e he
      rcases k1 e he with h | h
      · exact Or.inr (Or.inl h)
      · exact Or.inr (Or.inr h)
  | some content =>
      dsimp only
      rw [h1]
      have hpush : pushEvent (.textDelta content)
          { w with pending_events := w.pending_events ++ l1,
                   reasoning_started := rs1, reasoning_id := ri1 } =
          { w with pending_events := w.pending_events ++ (l1 ++ [.textDelta content]),
                   reasoning_started := rs1, reasoning_id := ri1 } := by
        simp [pushEvent]
      rw [hpush]
      obtain ⟨im, tc, od, h3, _⟩ := parseToolDelta_spec delta
        { w with pending_events := w.pending_events ++ (l1 ++ [.textDelta content]),
                 reasoning_started := rs1, reasoning_id := ri1 }
      rw [h3]
      refine ⟨l1 ++ [.textDelta content], im, tc, od, rs1, ri1, by ext <;> simp, ?_⟩
      intro e he
      rcases List.mem_append.mp he with h | h
      · rcases k1 e h with h' | h'
        · exact Or.inr (Or.inl h')
        · exact Or.inr (Or.inr h')
      · rcases List.mem_singleton.mp h with rfl
        exact Or.inl (by simp [isTextDeltaEv])

theorem handleChoices_spec (v : Json) (s : ProtocolStreamState) :
    ∃ l im tc od rs ri fr,
      handleChoices v s =
        { s with
            pending_events := s.pending_events ++
              ((if s.text_started = false ∧ chunkDeltaJson v = true
                then [StreamEvent.textStart] else []) ++ l),
            text_started := s.text_started || chunkDeltaJson v,
            tool_call_index_map := im, tool_calls := tc, tool_call_order := od,
            reasoning_started := rs, reasoning_id := ri, finish_reason := fr } ∧
      (∀ e ∈ l, isTextDeltaEv e = true ∨ isReasoningStartEv e = true ∨
        isReasoningDeltaEv e = true) ∧
      (chunkDeltaJson v = false →
        l = [] ∧ im = s.tool_call_index_map ∧ tc = s.tool_calls ∧
        od = s.tool_call_order ∧ rs = s.reasoning_started ∧ ri = s.reasoning_id) := by
  simp only [handleChoices]
  rcases hch : ((v.get "choices").bind Json.asArr).bind List.head? with _ | choice
  · have hcd : chunkDeltaJson v = false := by simp [chunkDeltaJson, hch]
    refine ⟨[], s.tool_call_index_map, s.tool_calls, s.tool_call_order,
      s.reasoning_started, s.reasoning_id, s.finish_reason, ?_, by simp, by simp⟩
    simp [hcd]
  · have hcd : chunkDeltaJson v = (choice.get "delta").isSome := by
      simp [chunkDeltaJson, hch]
    rw [hcd]
    dsimp only
    generalize hfr0 : (match (choice.get "finish_reason").bind Json.asStr with
      | some fr => { s with finish_reason := some fr }
      | none => s) = s0
    have hs0core : s0.pending_events = s.pending_events ∧
        s0.text_started = s.text_started ∧
        s0.tool_call_index_map = s.tool_call_index_map ∧
        s0.tool_calls = s.tool_calls ∧ s0.tool_call_order = s.tool_call_order ∧
        s0.reasoning_started = s.reasoning_started ∧
        s0.reasoning_id = s.reasoning_id ∧
        s0.emitted_tool_calls = s.emitted_tool_calls := by
      rw [← hfr0]
      cases (choice.get "finish_reason").bind Json.asStr <;>
        exact ⟨rfl, rfl, rfl, rfl, rfl, rfl, rfl, rfl⟩
    obtain ⟨hp0, ht0, him0, htc0, hod0, hrs0, hri0, hem0⟩ := hs0core
    generalize hd : choice.get "delta" = deltaOpt
    cases deltaOpt with
    | none =>
        refine ⟨[], s.tool_call_index_map, s.tool_calls, s.tool_call_order,
          s.reasoning_started, s.reasoning_id, s0.finish_reason, ?_, by simp, by simp⟩
        ext <;> simp [hp0, ht0, him0, htc0, hod0, hrs0, hri0, hem0]
    | some delta =>
        dsimp only
        rw [ht0]
        cases hts : s.text_started with
        | true =>
            rw [if_pos rfl]
            obtain ⟨l, im, tc, od, rs, ri, hEq, hKinds⟩ := deltaTail_spec delta s0
            rw [hEq]
            refine ⟨l, im, tc, od, rs, ri, s0.finish_reason, ?_, hKinds, by simp⟩
            ext <;> simp [hp0, ht0, him0, htc0, hod0, hrs0, hri0, hem0, hts]
        | false =>
            rw [if_neg Bool.false_ne_true]
            have hpush : pushEvent StreamEvent.textStart { s0 with text_started := true } =
                { s0 with pending_events := s0.pending_events ++ [StreamEvent.textStart],
                          text_started := true } := by
              simp [pushEvent]
            rw [hpush]
            obtain ⟨l, im, tc, od, rs, ri, hEq, hKinds⟩ := deltaTail_spec delta
              { s0 with pending_events := s0.pending_events ++ [StreamEvent.textStart],
                        text_started := true }
            rw [hEq]
            refine ⟨l, im, tc, od, rs, ri, s0.finish_reason, ?_, hKinds, by simp⟩
            ext <;> simp [hp0, ht0, him0, htc0, hod0, hrs0, hri0, hem0, hts]

/-! ## Shape of one whole chunk submission -/

theorem processChunk_payload (s : ProtocolStreamState) (v : Json) :
    processChunk s (.payload v) =
      ((payloadCore v s).pending_events, { payloadCore v s with pending_events := [] }) := by
  cases h : (payloadCore v s).pending_events with
  | nil => simp only [processChunk, parseStreamEvent, h]
  | cons e rest => simp only [processChunk, parseStreamEvent, h]

theorem processChunk_done_nil (s : ProtocolStreamState)
    (h : (doneCore s).pending_events = []) :
    processChunk s .done = ([.done (doneCore s).finish_reason], doneCore s) := by
  simp only [processChunk, parseStreamEvent, h]
  refine congrArg (Prod.mk _) ?_
  ext <;> simp [h]

theorem processChunk_done_cons (s : ProtocolStreamState) (e : StreamEvent)
    (rest : List StreamEvent) (h : (doneCore s).pending_events = e :: rest) :
    processChunk s .done = (e :: rest, { doneCore s with pending_events := [] }) := by
  simp only [processChunk, parseStreamEvent, h]

theorem payloadCore_spec (v : Json) (s : ProtocolStreamState) :
    ∃ l,
      (payloadCore v s).pending_events =
        s.pending_events ++ (usageEvsOf v ++
          ((if s.text_started = false ∧ chunkDeltaJson v = true
            then [StreamEvent.textStart] else []) ++ l)) ∧
      (∀ e ∈ l, isTextDeltaEv e = true ∨ isToolCallEv e = true ∨
        isReasoningStartEv e = true ∨ isReasoningDeltaEv e = true ∨
        isReasoningEndEv e = true) ∧
      (payloadCore v s).text_started = (s.text_started || chunkDeltaJson v) := by
  have h1 := handleUsage_spec v s
  obtain ⟨l1, im, tc, od, rs, ri, fr, hC, hK1, _⟩ :=
    handleChoices_spec v (handleUsage v s)
  have h2p : (handleChoices v (handleUsage v s)).pending_events =
      s.pending_events ++ (usageEvsOf v ++
        ((if s.text_started = false ∧ chunkDeltaJson v = true
          then [StreamEvent.textStart] else []) ++ l1)) := by
    rw [hC, h1]
    simp
  have h2ts : (handleChoices v (handleUsage v s)).text_started =
      (s.text_started || chunkDeltaJson v) := by
    rw [hC, h1]
  have hkind : ∀ e ∈ l1, isTextDeltaEv e = true ∨ isToolCallEv e = true ∨
      isReasoningStartEv e = true ∨ isReasoningDeltaEv e = true ∨
      isReasoningEndEv e = true := by
    intro e he
    rcases hK1 e he with h' | h' | h'
    · exact Or.inl h'
    · exact Or.inr (Or.inr (Or.inl h'))
    · exact Or.inr (Or.inr (Or.inr (Or.inl h')))
  simp only [payloadCore]
  by_cases hfin : (handleChoices v (handleUsage v s)).finish_reason = some "tool_calls"
  · rw [if_pos hfin]
    obtain ⟨l3, em3, hE, hK3⟩ := emitToolCalls_spec false (handleChoices v (handleUsage v s))
    have hEp : (emitToolCalls false (handleChoices v (handleUsage v s))).pending_events =
        (handleChoices v (handleUsage v s)).pending_events ++ l3 := by rw [hE]
    have hEts : (emitToolCalls false (handleChoices v (handleUsage v s))).text_started =
        (handleChoices v (handleUsage v s)).text_started := by rw [hE]
    by_cases hcr : (emitToolCalls false (handleChoices v (handleUsage v s))).finish_reason.isSome =
        true ∧ (emitToolCalls false (handleChoices v (handleUsage v s))).reasoning_started = true
    · rw [if_pos hcr]
      obtain ⟨l4, hCl, hK4⟩ :=
        closeReasoning_spec (emitToolCalls false (handleChoices v (handleUsage v s)))
      have hClp := congrArg ProtocolStreamState.pending_events hCl
      have hClts := congrArg ProtocolStreamState.text_started hCl
      simp only at hClp hClts
      refine ⟨l1 ++ (l3 ++ l4), ?_, ?_, ?_⟩
      · rw [hClp, hEp, h2p]
        simp
      · intro e he
        rcases List.mem_append.mp he with h | h
        · exact hkind e h
        · rcases List.mem_append.mp h with h' | h'
          · exact Or.inr (Or.inl (hK3 e h'))
          · exact Or.inr (Or.inr (Or.inr (Or.inr (hK4 e h'))))
      · rw [hClts, hEts, h2ts]
    · rw [if_neg hcr]
      refine ⟨l1 ++ l3, ?_, ?_, ?_⟩
      · rw [hEp, h2p]
        simp
      · intro e he
        rcases List.mem_append.mp he with h | h
        · exact hkind e h
        · exact Or.inr (Or.inl (hK3 e h))
      · rw [hEts, h2ts]
  · rw [if_neg hfin]
    by_cases hcr : (handleChoices v (handleUsage v s)).finish_reason.isSome = true ∧
        (handleChoices v (handleUsage v s)).reasoning_started = true
    · rw [if_pos hcr]
      obtain ⟨l4, hCl, hK4⟩ := closeReasoning_spec (handleChoices v (handleUsage v s))
      have hClp := congrArg ProtocolStreamState.pending_events hCl
      have hClts := congrArg ProtocolStreamState.text_started hCl
      simp only at hClp hClts
      refine ⟨l1 ++ l4, ?_, ?_, ?_⟩
      · rw [hClp, h2p]
        simp
      · intro e he
        rcases List.mem_append.mp he with h | h
        · exact hkind e h
        · exact Or.inr (Or.inr (Or.inr (Or.inr (hK4 e h))))
      · rw [hClts, h2ts]
    · rw [if_neg hcr]
      exact ⟨l1, h2p, hkind, h2ts⟩

theorem payloadCore_nodelta (v : Json) (s : ProtocolStreamState)
    (hnd : chunkDeltaJson v = false) (hord : s.tool_call_order = [])
    (hrs : s.reasoning_started = false) :
    ∃ fr, payloadCore v s =
      { s with pending_events := s.pending_events ++ usageEvsOf v,
               finish_reason := fr } := by
  have h1 := handleUsage_spec v s
  obtain ⟨l1, im, tc, od, rs, ri, fr, hC, _, hNoDelta⟩ :=
    handleChoices_spec v (handleUsage v s)
  obtain ⟨hl1, him, htc, hod, hrs', hri'⟩ := hNoDelta hnd
  have h2p : (handleChoices v (handleUsage v s)).pending_events =
      s.pending_events ++ usageEvsOf v := by
    rw [hC, h1]
    subst hl1
    simp [hnd]
  have h2im : (handleChoices v (handleUsage v s)).tool_call_index_map =
      s.tool_call_index_map := by
    rw [hC]
    dsimp only
    rw [him, h1]
  have h2tc : (handleChoices v (handleUsage v s)).tool_calls = s.tool_calls := by
    rw [hC]
    dsimp only
    rw [htc, h1]
  have h2ord : (handleChoices v (handleUsage v s)).tool_call_order = [] := by
    rw [hC]
    dsimp only
    rw [hod, h1]
    exact hord
  have h2rs : (handleChoices v (handleUsage v s)).reasoning_started = false := by
    rw [hC]
    dsimp only
    rw [hrs', h1]
    exact hrs
  have h2ri : (handleChoices v (handleUsage v s)).reasoning_id = s.reasoning_id := by
    rw [hC]
    dsimp only
    rw [hri', h1]
  have h2em : (handleChoices v (handleUsage v s)).emitted_tool_calls =
      s.emitted_tool_calls := by
    rw [hC, h1]
  have h2ts : (handleChoices v (handleUsage v s)).text_started = s.text_started := by
    rw [hC, h1]
    simp [hnd]
  have hfinal : handleChoices v (handleUsage v s) =
      { s with pending_events := s.pending_events ++ usageEvsOf v,
               finish_reason := (handleChoices v (handleUsage v s)).finish_reason } := by
    apply ProtocolStreamState.ext <;>
      simp [h2p, h2im, h2tc, h2ord, h2rs, h2ri, h2em, h2ts, hrs, hord]
  simp only [payloadCore]
  by_cases hfin : (handleChoices v (handleUsage v s)).finish_reason = some "tool_calls"
  · rw [if_pos hfin]
    have hemit : emitToolCalls false (handleChoices v (handleUsage v s)) =
        handleChoices v (handleUsage v s) := by
      rw [emitToolCalls, h2ord]
      rfl
    rw [hemit]
    rw [if_neg (by simp [h2rs])]
    exact ⟨(handleChoices v (handleUsage v s)).finish_reason, hfinal⟩
  · rw [if_neg hfin]
    rw [if_neg (by simp [h2rs])]
    exact ⟨(handleChoices v (handleUsage v s)).finish_reason, hfinal⟩

theorem doneCore_spec (s : ProtocolStreamState) :
    ∃ l em,
      doneCore s =
        { s with pending_events := s.pending_events ++ l,
                 emitted_tool_calls := s.emitted_tool_calls ++ em,
                 reasoning_started := false } ∧
      (∀ e ∈ l, isToolCallEv e = true ∨ isReasoningEndEv e = true) := by
  simp only [doneCore]
  obtain ⟨l1, em1, hE, hK1⟩ := emitToolCalls_spec true s
  obtain ⟨l2, hCl, hK2⟩ := closeReasoning_spec (emitToolCalls true s)
  rw [hCl, hE]
  refine ⟨l1 ++ l2, em1, ?_, ?_⟩
  · ext <;> simp [hE]
  · intro e he
    rcases List.mem_append.mp he with h | h
    · exact Or.inl (hK1 e h)
    · exact Or.inr (hK2 e h)

theorem doneCore_id (s : ProtocolStreamState) (hord : s.tool_call_order = [])
    (hrs : s.reasoning_started = false) : doneCore s = s := by
  have hemit : emitToolCalls true s = s := by simp [emitToolCalls, hord]
  simp [doneCore, hemit, closeReasoning, hrs]

/-! ## Claim C5: when a usage sub-object yields a Usage event -/

/-- Counterexample to C5 as stated: a chunk whose usage sub-object carries
the explicit non-zero total token count `-1` produces no Usage event at all
(the source demands a strictly positive total, `is_some_and(|v| v > 0)`),
while the claim requires one for any explicit non-zero total. -/
theorem c5_counterexample_negative_total :
    (processChunk initState (ChunkData.payload
        (Json.obj [("usage", Json.obj [("total_tokens", Json.num (-1))])]))).1 = [] ∧
      usageTotal (Json.obj [("total_tokens", Json.num (-1))]) = some (-1) := by
  constructor <;> rfl

/-- C5 as amended: for every chunk payload containing a usage sub-object,
processed under the drain discipline, the chunk produces exactly one Usage
event if the reported prompt-token count is strictly positive, or the
reported completion-token count is strictly positive, or an explicit
strictly-positive total token count is present — and no Usage event
otherwise (in particular an all-zero usage block produces none). -/
theorem nonUsage_of_kinds (e : StreamEvent)
    (h : isTextDeltaEv e = true ∨ isToolCallEv e = true ∨ isReasoningStartEv e = true ∨
      isReasoningDeltaEv e = true ∨ isReasoningEndEv e = true) :
    isUsageEv e = false := by
  cases e <;> simp_all [isUsageEv, isTextDeltaEv, isToolCallEv,
    isReasoningStartEv, isReasoningDeltaEv, isReasoningEndEv]

set_option maxHeartbeats 1000000 in
theorem c5_amended_usage_event_iff_positive (s : ProtocolStreamState) (v u : Json)
    (hpend : s.pending_events = [])
    (hu : v.get "usage" = some u) :
    ((processChunk s (.payload v)).1).countP (fun e => isUsageEv e) =
      (if 0 < usagePrompt u ∨ 0 < usageCompletion u ∨ 0 < (usageTotal u).getD 0
       then 1 else 0) := by
  rw [processChunk_payload]
  dsimp only
  obtain ⟨l, hp, hk, _⟩ := payloadCore_spec v s
  rw [hp, hpend]
  simp only [List.nil_append, List.countP_append]
  rw [countP_usageEvsOf v u hu]
  have hts : (if s.text_started = false ∧ chunkDeltaJson v = true
      then [StreamEvent.textStart] else []).countP (fun e => isUsageEv e) = 0 := by
    split_ifs <;> simp [isUsageEv]
  have hl : l.countP (fun e => isUsageEv e) = 0 := by
    rw [List.countP_eq_zero]
    intro e he
    simp [nonUsage_of_kinds e (hk e he)]
  rw [hts, hl]
  omega

/-- Witness for C5 (amended) at a concrete input: a usage block reporting
three prompt tokens yields exactly one Usage event. -/
theorem c5_amended_usage_event_iff_positive_witness :
    ((processChunk initState (.payload
        (Json.obj [("usage", Json.obj [("prompt_tokens", Json.num 3)])]))).1).countP
        (fun e => isUsageEv e) =
      (if 0 < usagePrompt (Json.obj [("prompt_tokens", Json.num 3)]) ∨
          0 < usageCompletion (Json.obj [("prompt_tokens", Json.num 3)]) ∨
          0 < (usageTotal (Json.obj [("prompt_tokens", Json.num 3)])).getD 0
       then 1 else 0) :=
  c5_amended_usage_event_iff_positive initState
    (Json.obj [("usage", Json.obj [("prompt_tokens", Json.num 3)])])
    (Json.obj [("prompt_tokens", Json.num 3)]) rfl rfl

/-! ## TextStart ordering machinery (claims C3 and C4) -/

theorem notTS_of_kinds (e : StreamEvent)
    (h : isTextDeltaEv e = true ∨ isToolCallEv e = true ∨ isReasoningStartEv e = true ∨
      isReasoningDeltaEv e = true ∨ isReasoningEndEv e = true) :
    isTextStartEv e = false := by
  cases e <;> simp_all [isTextStartEv, isTextDeltaEv, isToolCallEv,
    isReasoningStartEv, isReasoningDeltaEv, isReasoningEndEv]

theorem notTS_of_usage (e : StreamEvent) (h : isUsageEv e = true) :
    isTextStartEv e = false := by
  cases e <;> simp_all [isTextStartEv, isUsageEv]

theorem noTS_iff (l : List StreamEvent) : noTS l = true ↔ ∀ e ∈ l, isTextStartEv e = false := by
  simp [noTS, List.all_eq_true]

theorem hasTS_cons (e : StreamEvent) (t : List StreamEvent) :
    hasTS (e :: t) = (isTextStartEv e || hasTS t) := by
  simp [hasTS]

theorem hasTS_append (a b : List StreamEvent) : hasTS (a ++ b) = (hasTS a || hasTS b) := by
  simp [hasTS, List.any_append]

theorem hasTS_false_of_noTS (l : List StreamEvent) (h : noTS l = true) : hasTS l = false := by
  rw [noTS_iff] at h
  simp only [hasTS, List.any_eq_false]
  intro e he
  simp [h e he]

theorem noTS_append_of (a b : List StreamEvent) (ha : noTS a = true) (hb : noTS b = true) :
    noTS (a ++ b) = true := by
  rw [noTS_iff] at ha hb ⊢
  intro e he
  rcases List.mem_append.mp he with h | h
  · exact ha e h
  · exact hb e h

theorem scanBefore_cons_ts (bad : StreamEvent → Bool) (e : StreamEvent)
    (t : List StreamEvent) (h : isTextStartEv e = true) :
    scanBefore bad (e :: t) = true := by
  simp [scanBefore, h]

theorem scanBefore_cons_not (bad : StreamEvent → Bool) (e : StreamEvent)
    (t : List StreamEvent) (h : isTextStartEv e = false) :
    scanBefore bad (e :: t) = (!bad e && scanBefore bad t) := by
  simp [scanBefore, h]

theorem atMostOneTS_cons_ts (e : StreamEvent) (t : List StreamEvent)
    (h : isTextStartEv e = true) : atMostOneTS (e :: t) = noTS t := by
  simp [atMostOneTS, h]

theorem atMostOneTS_cons_not (e : StreamEvent) (t : List StreamEvent)
    (h : isTextStartEv e = false) : atMostOneTS (e :: t) = atMostOneTS t := by
  simp [atMostOneTS, h]

theorem atMostOneTS_of_noTS (l : List StreamEvent) (h : noTS l = true) :
    atMostOneTS l = true := by
  induction l with
  | nil => rfl
  | cons e t ih =>
      rw [noTS_iff] at h
      have he : isTextStartEv e = false := h e (by simp)
      have ht : noTS t = true := by
        rw [noTS_iff]
        intro x hx
        exact h x (by simp [hx])
      rw [atMostOneTS_cons_not e t he]
      exact ih ht

theorem scanBefore_append (bad : StreamEvent → Bool) (a b : List StreamEvent)
    (h1 : scanBefore bad a = true) (h2 : hasTS a = false → scanBefore bad b = true) :
    scanBefore bad (a ++ b) = true := by
  induction a with
  | nil => exact h2 rfl
  | cons e t ih =>
      by_cases he : isTextStartEv e = true
      · rw [List.cons_append, scanBefore_cons_ts bad e (t ++ b) he]
      · simp only [Bool.not_eq_true] at he
        rw [scanBefore_cons_not bad e t he] at h1
        rw [List.cons_append, scanBefore_cons_not bad e (t ++ b) he]
        simp only [Bool.and_eq_true] at h1 ⊢
        refine ⟨h1.1, ih h1.2 ?_⟩
        intro ht
        apply h2
        rw [hasTS_cons, he, ht]
        rfl

theorem atMostOneTS_append (a b : List StreamEvent)
    (h1 : atMostOneTS a = true) (h2 : hasTS a = false → atMostOneTS b = true)
    (h3 : hasTS a = true → noTS b = true) : atMostOneTS (a ++ b) = true := by
  induction a with
  | nil => exact h2 rfl
  | cons e t ih =>
      by_cases he : isTextStartEv e = true
      · rw [atMostOneTS_cons_ts e t he] at h1
        rw [List.cons_append, atMostOneTS_cons_ts e (t ++ b) he]
        exact noTS_append_of t b h1 (h3 (by rw [hasTS_cons, he]; rfl))
      · simp only [Bool.not_eq_true] at he
        rw [atMostOneTS_cons_not e t he] at h1
        rw [List.cons_append, atMostOneTS_cons_not e (t ++ b) he]
        refine ih h1 ?_ ?_
        · intro ht
          apply h2
          rw [hasTS_cons, he, ht]
          rfl
        · intro ht
          apply h3
          rw [hasTS_cons, he, ht]
          rfl

theorem scanBefore_of_harmless (bad : StreamEvent → Bool) (l : List StreamEvent)
    (h : ∀ e ∈ l, bad e = false) : scanBefore bad l = true := by
  induction l with
  | nil => rfl
  | cons e t ih =>
      by_cases he : isTextStartEv e = true
      · exact scanBefore_cons_ts bad e t he
      · simp only [Bool.not_eq_true] at he
        rw [scanBefore_cons_not bad e t he]
        simp only [Bool.and_eq_true]
        constructor
        · rw [h e (by simp)]
          rfl
        · exact ih (fun x hx => h x (by simp [hx]))

theorem noTS_usageEvs (v : Json) : noTS (usageEvsOf v) = true := by
  rw [noTS_iff]
  intro e he
  exact notTS_of_usage e (usageEvsOf_kinds v e he)

/-- One chunk submission preserves the TextStart discipline: the state
stays drained, `text_started` latches on the first delta, a fresh stream
has no accumulators, and the chunk's events respect the scan invariants. -/
theorem processChunk_step (bad : StreamEvent → Bool)
    (hbadU : ∀ e, isUsageEv e = true → bad e = false)
    (hbadD : ∀ fr, bad (.done fr) = false)
    (s : ProtocolStreamState) (c : ChunkData)
    (hpend : s.pending_events = [])
    (hinv : s.text_started = false →
      s.tool_call_order = [] ∧ s.tool_calls = [] ∧ s.reasoning_started = false) :
    (processChunk s c).2.pending_events = [] ∧
    (processChunk s c).2.text_started = (s.text_started || chunkHasDelta c) ∧
    ((processChunk s c).2.text_started = false →
      (processChunk s c).2.tool_call_order = [] ∧ (processChunk s c).2.tool_calls = [] ∧
      (processChunk s c).2.reasoning_started = false) ∧
    (s.text_started = true → noTS (processChunk s c).1 = true) ∧
    (s.text_started = false →
      scanBefore bad (processChunk s c).1 = true ∧
      atMostOneTS (processChunk s c).1 = true ∧
      hasTS (processChunk s c).1 = chunkHasDelta c) := by
  cases c with
  | malformed =>
      have hmc : processChunk s .malformed = ([], s) := rfl
      rw [hmc]
      dsimp only
      refine ⟨hpend, by simp [chunkHasDelta], hinv, fun _ => rfl, fun _ => ⟨rfl, rfl, ?_⟩⟩
      simp [hasTS, chunkHasDelta]
  | done =>
      cases hts : s.text_started with
      | false =>
          obtain ⟨hord, hcalls, hrs⟩ := hinv hts
          have hid := doneCore_id s hord hrs
          have hp : (doneCore s).pending_events = [] := by rw [hid]; exact hpend
          rw [processChunk_done_nil s hp]
          dsimp only
          rw [hid]
          refine ⟨hpend, by simp [chunkHasDelta, hts], fun _ => ⟨hord, hcalls, hrs⟩, ?_, ?_⟩
          · intro h
            exact Bool.noConfusion h
          · intro _
            refine ⟨?_, ?_, ?_⟩
            · rw [scanBefore_cons_not bad _ [] (by rfl)]
              rw [hbadD s.finish_reason]
              rfl
            · rfl
            · simp [hasTS, isTextStartEv, chunkHasDelta]
      | true =>
          obtain ⟨l, em, hD, hK⟩ := doneCore_spec s
          have hp : (doneCore s).pending_events = l := by rw [hD]; simp [hpend]
          have hDts : (doneCore s).text_started = s.text_started := by rw [hD]
          have hnl : noTS l = true := by
            rw [noTS_iff]
            intro e he
            refine notTS_of_kinds e ?_
            rcases hK e he with h | h
            · exact Or.inr (Or.inl h)
            · exact Or.inr (Or.inr (Or.inr (Or.inr h)))
          cases hl : l with
          | nil =>
              rw [hl] at hp
              rw [processChunk_done_nil s hp]
              dsimp only
              refine ⟨hp, by rw [hDts, hts]; rfl, ?_, ?_, ?_⟩
              · intro h
                rw [hDts, hts] at h
                cases h
              · intro _
                rw [noTS_iff]
                intro e he
                simp only [List.mem_singleton] at he
                subst he
                rfl
              · intro h
                exact Bool.noConfusion h
          | cons e rest =>
              rw [hl] at hp
              rw [processChunk_done_cons s e rest hp]
              dsimp only
              refine ⟨rfl, by rw [hDts, hts]; rfl, ?_, ?_, ?_⟩
              · intro h
                rw [hDts, hts] at h
                cases h
              · intro _
                rw [← hl]
                exact hnl
              · intro h
                exact Bool.noConfusion h
  | payload v =>
      rw [processChunk_payload]
      dsimp only
      cases hts : s.text_started with
      | false =>
          cases hcd : chunkDeltaJson v with
          | false =>
              obtain ⟨hord, hcalls, hrs⟩ := hinv hts
              obtain ⟨fr, hN⟩ := payloadCore_nodelta v s hcd hord hrs
              have hp : (payloadCore v s).pending_events = usageEvsOf v := by
                rw [hN]
                simp [hpend]
              refine ⟨?_, ?_, ?_, ?_, ?_⟩
              · rfl
              · rw [hN, hts]
                simp [chunkHasDelta, hcd, hts]
              · intro _
                rw [hN]
                exact ⟨hord, hcalls, hrs⟩
              · intro h
                exact Bool.noConfusion h
              · intro _
                rw [hp]
                refine ⟨?_, ?_, ?_⟩
                · exact scanBefore_of_harmless bad _
                    (fun e he => hbadU e (usageEvsOf_kinds v e he))
                · exact atMostOneTS_of_noTS _ (noTS_usageEvs v)
                · rw [hasTS_false_of_noTS _ (noTS_usageEvs v)]
                  simp [chunkHasDelta, hcd]
          | true =>
              obtain ⟨l, hp, hk, hts2⟩ := payloadCore_spec v s
              rw [hts, hcd] at hp hts2
              simp only [hpend, List.nil_append, eq_self_iff_true, and_self, if_true] at hp
              have hnl : noTS l = true := by
                rw [noTS_iff]
                intro e he
                exact notTS_of_kinds e (hk e he)
              refine ⟨?_, ?_, ?_, ?_, ?_⟩
              · rfl
              · rw [hts2]
                simp [chunkHasDelta, hcd, hts]
              · intro h
                rw [hts2] at h
                cases h
              · intro h
                exact Bool.noConfusion h
              · intro _
                rw [hp]
                refine ⟨?_, ?_, ?_⟩
                · refine scanBefore_append bad _ _
                    (scanBefore_of_harmless bad _
                      (fun e he => hbadU e (usageEvsOf_kinds v e he))) ?_
                  intro _
                  rw [List.singleton_append]
                  exact scanBefore_cons_ts bad StreamEvent.textStart l rfl
                · refine atMostOneTS_append _ _
                    (atMostOneTS_of_noTS _ (noTS_usageEvs v)) ?_ ?_
                  · intro _
                    rw [List.singleton_append,
                      atMostOneTS_cons_ts StreamEvent.textStart l rfl]
                    exact hnl
                  · intro ht
                    rw [hasTS_false_of_noTS _ (noTS_usageEvs v)] at ht
                    cases ht
                · rw [hasTS_append, hasTS_false_of_noTS _ (noTS_usageEvs v),
                    List.singleton_append, hasTS_cons]
                  simp [isTextStartEv, chunkHasDelta, hcd]
      | true =>
          obtain ⟨l, hp, hk, hts2⟩ := payloadCore_spec v s
          rw [hts] at hp hts2
          simp only [hpend, List.nil_append] at hp
          have hif : (if (true = false ∧ chunkDeltaJson v = true)
              then [StreamEvent.textStart] else []) = [] := by
            rw [if_neg]
            intro h
            cases h.1
          rw [hif, List.nil_append] at hp
          have hnl : noTS l = true := by
            rw [noTS_iff]
            intro e he
            exact notTS_of_kinds e (hk e he)
          refine ⟨rfl, by rw [hts2]; simp [chunkHasDelta], ?_, ?_, ?_⟩
          · intro h
            rw [hts2] at h
            cases h
          · intro _
            rw [hp]
            exact noTS_append_of _ _ (noTS_usageEvs v) hnl
          · intro h
            exact Bool.noConfusion h

/-- The stream-level invariant, folded over a whole chunk sequence. -/
theorem runSteps_spec (bad : StreamEvent → Bool)
    (hbadU : ∀ e, isUsageEv e = true → bad e = false)
    (hbadD : ∀ fr, bad (.done fr) = false) :
    ∀ (cs : List ChunkData) (s : ProtocolStreamState),
      s.pending_events = [] →
      (s.text_started = false →
        s.tool_call_order = [] ∧ s.tool_calls = [] ∧ s.reasoning_started = false) →
      (s.text_started = true → noTS (runSteps s cs) = true) ∧
      (s.text_started = false →
        scanBefore bad (runSteps s cs) = true ∧
        atMostOneTS (runSteps s cs) = true ∧
        hasTS (runSteps s cs) = cs.any chunkHasDelta) := by
  intro cs
  induction cs with
  | nil =>
      intro s hpend hinv
      exact ⟨fun _ => rfl, fun _ => ⟨rfl, rfl, rfl⟩⟩
  | cons c cs ih =>
      intro s hpend hinv
      obtain ⟨h1, h2, h3, h4, h5⟩ := processChunk_step bad hbadU hbadD s c hpend hinv
      have hrun : runSteps s (c :: cs) =
          (processChunk s c).1 ++ runSteps (processChunk s c).2 cs := by
        rcases hpc : processChunk s c with ⟨evs, s2⟩
        simp [runSteps, hpc]
      obtain ⟨ih1, ih2⟩ := ih (processChunk s c).2 h1 h3
      rw [hrun]
      constructor
      · intro hts
        have hts' : (processChunk s c).2.text_started = true := by
          rw [h2, hts]
          rfl
        exact noTS_append_of _ _ (h4 hts) (ih1 hts')
      · intro hts
        obtain ⟨hscan, hone, hhas⟩ := h5 hts
        have hts' : (processChunk s c).2.text_started = chunkHasDelta c := by
          rw [h2, hts]
          rfl
        cases hcd : chunkHasDelta c with
        | true =>
            have htrue : (processChunk s c).2.text_started = true := by rw [hts', hcd]
            have hnoTSrest := ih1 htrue
            refine ⟨?_, ?_, ?_⟩
            · refine scanBefore_append bad _ _ hscan ?_
              intro hf
              rw [hhas, hcd] at hf
              cases hf
            · refine atMostOneTS_append _ _ hone ?_ (fun _ => hnoTSrest)
              intro hf
              rw [hhas, hcd] at hf
              cases hf
            · rw [hasTS_append, hhas, hcd]
              simp [List.any_cons, hcd]
        | false =>
            have hfalse : (processChunk s c).2.text_started = false := by rw [hts', hcd]
            obtain ⟨ihscan, ihone, ihhas⟩ := ih2 hfalse
            refine ⟨?_, ?_, ?_⟩
            · exact scanBefore_append bad _ _ hscan (fun _ => ihscan)
            · refine atMostOneTS_append _ _ hone (fun _ => ihone) ?_
              intro hf
              rw [hhas, hcd] at hf
              cases hf
            · rw [hasTS_append, hhas, ihhas, hcd]
              simp [List.any_cons, hcd]

/-! ## Claim C3: TextStart multiplicity and position -/

/-- Counterexample to C3 as stated: a stream consisting of a usage-only
chunk followed by the terminator emits a Usage and a Done event but no
TextStart at all — TextStart is not emitted "exactly once" for every
stream. -/
theorem c3_counterexample_stream_without_delta :
    runStream [ChunkData.payload
        (Json.obj [("usage", Json.obj [("prompt_tokens", Json.num 3)])]),
      ChunkData.done] =
      [StreamEvent.usage 3 0 none none none, StreamEvent.done none] ∧
    (runStream [ChunkData.payload
        (Json.obj [("usage", Json.obj [("prompt_tokens", Json.num 3)])]),
      ChunkData.done]).countP (fun e => isTextStartEv e) = 0 := by
  constructor <;> rfl

/-- C3 as amended: for every stream, TextStart occurs at most once, no
TextDelta, ToolCall or ReasoningStart event occurs strictly before the
first TextStart, and TextStart occurs (then exactly once) precisely when
some chunk of the stream carries a delta. -/
theorem c3_amended_textstart_once_before_interesting (cs : List ChunkData) :
    atMostOneTS (runStream cs) = true ∧
    scanBefore interestingEv (runStream cs) = true ∧
    hasTS (runStream cs) = cs.any chunkHasDelta := by
  have hU : ∀ e, isUsageEv e = true → interestingEv e = false := by
    intro e h
    cases e <;> simp_all [isUsageEv, interestingEv, isTextDeltaEv, isToolCallEv,
      isReasoningStartEv]
  have hD : ∀ fr, interestingEv (.done fr) = false := fun _ => rfl
  have h := (runSteps_spec interestingEv hU hD cs initState rfl
    (fun _ => ⟨rfl, rfl, rfl⟩)).2 rfl
  exact ⟨h.2.1, h.1, h.2.2⟩

/-! ## Claim C4: what may precede TextStart -/

/-- Counterexample to C4 as stated: when the first chunk carries both a
usage sub-object and a delta, the Usage event is emitted before TextStart,
so TextStart is not "before any other event produced for that stream". -/
theorem c4_counterexample_usage_before_textstart :
    runStream [ChunkData.payload (Json.obj
        [("usage", Json.obj [("prompt_tokens", Json.num 1)]),
         ("choices", Json.arr [Json.obj [("delta",
            Json.obj [("content", Json.str "hi")])]])])] =
      [StreamEvent.usage 1 0 none none none, StreamEvent.textStart,
       StreamEvent.textDelta "hi"] ∧
    (runStream [ChunkData.payload (Json.obj
        [("usage", Json.obj [("prompt_tokens", Json.num 1)]),
         ("choices", Json.arr [Json.obj [("delta",
            Json.obj [("content", Json.str "hi")])]])])]).head? =
      some (StreamEvent.usage 1 0 none none none) := by
  constructor <;> rfl

/-- C4 as amended: in every stream, TextStart precedes every event produced
by delta handling — every TextDelta, ToolCall, ReasoningStart,
ReasoningDelta and ReasoningEnd occurs strictly after the TextStart; only
Usage events (from the same or an earlier chunk) and the final Done may
precede it. -/
theorem c4_amended_textstart_before_delta_events (cs : List ChunkData) :
    scanBefore deltaDerivedEv (runStream cs) = true := by
  have hU : ∀ e, isUsageEv e = true → deltaDerivedEv e = false := by
    intro e h
    cases e <;> simp_all [isUsageEv, deltaDerivedEv, isTextDeltaEv, isToolCallEv,
      isReasoningStartEv, isReasoningDeltaEv, isReasoningEndEv]
  have hD : ∀ fr, deltaDerivedEv (.done fr) = false := fun _ => rfl
  exact ((runSteps_spec deltaDerivedEv hU hD cs initState rfl
    (fun _ => ⟨rfl, rfl, rfl⟩)).2 rfl).1

/-! ## Claim C1: accumulation of one logical tool call -/

theorem orInsertNat_hit (i : Nat) (v w : String) :
    orInsertNat i v [(i, w)] = [(i, w)] := by
  simp [orInsertNat]

theorem lookupNat_hit (i : Nat) (w : String) : lookupNat i [(i, w)] = some w := by
  simp [lookupNat]

theorem lookupAcc_hit (c : String) (a : ToolCallAccum) :
    lookupAcc c [(c, a)] = some a := by
  simp [lookupAcc]

theorem lookupAcc_miss (c k : String) (a : ToolCallAccum) (h : c ≠ k) :
    lookupAcc k [(c, a)] = none := by
  simp [lookupAcc, h]

theorem storeAcc_hit (c : String) (a b : ToolCallAccum) :
    storeAcc c b [(c, a)] = [(c, b)] := by
  simp [storeAcc]

theorem replicate_append_get (i : Nat) (c : String) :
    (List.replicate i "" ++ [c]).get? i = some c := by
  induction i with
  | zero => rfl
  | succ n ih => simpa using ih

theorem replicate_append_set (i : Nat) (c x : String) :
    (List.replicate i "" ++ [c]).set i x = List.replicate i "" ++ [x] := by
  induction i with
  | zero => rfl
  | succ n ih => simpa using ih

theorem replicate_succ_set (i : Nat) (x : String) :
    (List.replicate (i + 1) "").set i x = List.replicate i "" ++ [x] := by
  induction i with
  | zero => rfl
  | succ n ih => simpa [List.replicate_succ] using ih

theorem replicate_succ_get (i : Nat) :
    ((List.replicate (i + 1) "") : List String).get? i = some "" := by
  induction i with
  | zero => rfl
  | succ n ih => simpa [List.replicate_succ] using ih

theorem mkToolEntry_index (d : ToolDeltaSpec) :
    ((mkToolEntry d).get "index").bind Json.asNat = some d.idx := by
  simp [mkToolEntry, Json.get, Json.asNat]

theorem mkToolEntry_id (d : ToolDeltaSpec) :
    ((mkToolEntry d).get "id").bind Json.asStr = some d.id := rfl

theorem mkToolEntry_name (d : ToolDeltaSpec) :
    (((mkToolEntry d).get "function").bind (fun f => f.get "name")).bind Json.asStr =
      some d.name := rfl

theorem mkToolEntry_args (d : ToolDeltaSpec) :
    ((mkToolEntry d).get "function").bind (fun f => f.get "arguments") =
      some (Json.str d.args) := rfl

/-- One further delta of the call (same index, id present or omitted)
extends the accumulator in place: the name is refreshed when non-empty and
the argument fragment is appended; the index map and the order list are
unchanged. -/
theorem parseToolEntryCore_stepInv (d : ToolDeltaSpec) (i : Nat) (c nm frags : String)
    (hc : c ≠ "") (hi : d.idx = i) (hid : d.id = "" ∨ d.id = c) :
    parseToolEntryCore (mkToolEntry d)
      ([(i, c)], [(c, ⟨c, nm, frags⟩)], List.replicate i "" ++ [c]) =
      ([(i, c)], [(c, ⟨c, (if d.name ≠ "" then d.name else nm), frags ++ d.args⟩)],
        List.replicate i "" ++ [c]) := by
  subst hi
  have hlen : ¬((List.replicate d.idx "" ++ [c]).length ≤ d.idx) := by
    simp
  rcases hid with hid | hid
  · simp only [parseToolEntryCore, mkToolEntry_index, mkToolEntry_id, mkToolEntry_name,
      mkToolEntry_args, Option.getD_some, hid, ne_eq, not_true_eq_false, if_false,
      ite_false, lookupNat_hit, lookupAcc_hit, if_neg hlen, replicate_append_get]
    rw [if_neg hc]
    by_cases hname : d.name = "" <;> by_cases hargs : d.args = "" <;>
      simp [hname, hargs, Json.asStr, storeAcc_hit, replicate_append_set,
        replicate_append_get, ite_self, hc]
  · simp only [parseToolEntryCore, mkToolEntry_index, mkToolEntry_id, mkToolEntry_name,
      mkToolEntry_args, Option.getD_some, hid, ne_eq, hc, not_false_eq_true, if_true,
      ite_true, orInsertNat_hit, lookupNat_hit, lookupAcc_hit, if_neg hlen,
      replicate_append_get, if_false, ite_false]
    by_cases hname : d.name = "" <;> by_cases hargs : d.args = "" <;>
      simp [hname, hargs, Json.asStr, storeAcc_hit, replicate_append_set,
        replicate_append_get, orInsertNat_hit, lookupNat_hit, lookupAcc_hit,
        ite_self, hc]


/-- The very first delta of a call, carrying the index and a non-empty id
together, creates the accumulator from the empty triple: the index is
mapped, the accumulator is created under the id with the delta name and
fragment, and the order list is grown to place the id at the index slot. -/
theorem parseToolEntryCore_firstDelta (d : ToolDeltaSpec) (i : Nat) (c : String)
    (hc : c ≠ "") (hi : d.idx = i) (hid : d.id = c) :
    parseToolEntryCore (mkToolEntry d) ([], [], []) =
      ([(i, c)], [(c, ⟨c, d.name, d.args⟩)], List.replicate i "" ++ [c]) := by
  subst hi; subst hid
  simp only [parseToolEntryCore, mkToolEntry_index, mkToolEntry_id, mkToolEntry_name,
    mkToolEntry_args, Option.getD_some]
  by_cases hargs : d.args = "" <;>
    simp [hc, hargs, Json.asStr, orInsertNat, lookupAcc, storeAcc,
      replicate_succ_get, replicate_succ_set, ite_self]

/-- A chunk carrying one tool-call delta, seen while the text phase is
open, only reroutes the three tool accumulation fields through the loop
body. -/
theorem handleChoices_toolChunk (d : ToolDeltaSpec) (s : ProtocolStreamState)
    (hts : s.text_started = true) :
    handleChoices (mkToolChunk d) s =
      { s with
          tool_call_index_map := (parseToolEntryCore (mkToolEntry d)
            (s.tool_call_index_map, s.tool_calls, s.tool_call_order)).1,
          tool_calls := (parseToolEntryCore (mkToolEntry d)
            (s.tool_call_index_map, s.tool_calls, s.tool_call_order)).2.1,
          tool_call_order := (parseToolEntryCore (mkToolEntry d)
            (s.tool_call_index_map, s.tool_calls, s.tool_call_order)).2.2 } := by
  have h1 : (((mkToolChunk d).get "choices").bind Json.asArr).bind List.head? =
      some (Json.obj [("delta", Json.obj [("tool_calls", Json.arr [mkToolEntry d])])]) := rfl
  have h2 : ((Json.obj [("delta", Json.obj [("tool_calls", Json.arr [mkToolEntry d])])]).get
      "finish_reason").bind Json.asStr = none := rfl
  have h3 : (Json.obj [("delta", Json.obj [("tool_calls", Json.arr [mkToolEntry d])])]).get
      "delta" = some (Json.obj [("tool_calls", Json.arr [mkToolEntry d])]) := rfl
  have h4 : ((Json.obj [("tool_calls", Json.arr [mkToolEntry d])]).get
      "reasoning_content").bind Json.asStr = none := rfl
  have h5 : ((Json.obj [("tool_calls", Json.arr [mkToolEntry d])]).get
      "content").bind Json.asStr = none := rfl
  have h6 : ((Json.obj [("tool_calls", Json.arr [mkToolEntry d])]).get
      "tool_calls").bind Json.asArr = some [mkToolEntry d] := rfl
  simp only [handleChoices, h1, h2, h3, hts, if_true, deltaTail, handleReasoning, h4, h5,
    parseToolDelta, h6, List.foldl_cons, List.foldl_nil]

/-- The same chunk, seen before the text phase has opened, additionally
pushes the one TextStart and records the phase. -/
theorem handleChoices_toolChunk_fresh (d : ToolDeltaSpec) (s : ProtocolStreamState)
    (hts : s.text_started = false) :
    handleChoices (mkToolChunk d) s =
      { s with
          pending_events := s.pending_events ++ [StreamEvent.textStart],
          text_started := true,
          tool_call_index_map := (parseToolEntryCore (mkToolEntry d)
            (s.tool_call_index_map, s.tool_calls, s.tool_call_order)).1,
          tool_calls := (parseToolEntryCore (mkToolEntry d)
            (s.tool_call_index_map, s.tool_calls, s.tool_call_order)).2.1,
          tool_call_order := (parseToolEntryCore (mkToolEntry d)
            (s.tool_call_index_map, s.tool_calls, s.tool_call_order)).2.2 } := by
  have h1 : (((mkToolChunk d).get "choices").bind Json.asArr).bind List.head? =
      some (Json.obj [("delta", Json.obj [("tool_calls", Json.arr [mkToolEntry d])])]) := rfl
  have h2 : ((Json.obj [("delta", Json.obj [("tool_calls", Json.arr [mkToolEntry d])])]).get
      "finish_reason").bind Json.asStr = none := rfl
  have h3 : (Json.obj [("delta", Json.obj [("tool_calls", Json.arr [mkToolEntry d])])]).get
      "delta" = some (Json.obj [("tool_calls", Json.arr [mkToolEntry d])]) := rfl
  have h4 : ((Json.obj [("tool_calls", Json.arr [mkToolEntry d])]).get
      "reasoning_content").bind Json.asStr = none := rfl
  have h5 : ((Json.obj [("tool_calls", Json.arr [mkToolEntry d])]).get
      "content").bind Json.asStr = none := rfl
  have h6 : ((Json.obj [("tool_calls", Json.arr [mkToolEntry d])]).get
      "tool_calls").bind Json.asArr = some [mkToolEntry d] := rfl
  simp only [handleChoices, h1, h2, h3, hts, Bool.false_eq_true, if_false, pushEvent,
    deltaTail, handleReasoning, h4, h5, parseToolDelta, h6, List.foldl_cons,
    List.foldl_nil]


/-- Submitting a tool-delta chunk inside the text phase with nothing
pending yields no events and only updates the three accumulation fields. -/
theorem processChunk_toolChunk (d : ToolDeltaSpec) (s : ProtocolStreamState)
    (hts : s.text_started = true) (hp : s.pending_events = [])
    (hfr : s.finish_reason = none) (hrs : s.reasoning_started = false) :
    processChunk s (.payload (mkToolChunk d)) =
      ([], { s with
          tool_call_index_map := (parseToolEntryCore (mkToolEntry d)
            (s.tool_call_index_map, s.tool_calls, s.tool_call_order)).1,
          tool_calls := (parseToolEntryCore (mkToolEntry d)
            (s.tool_call_index_map, s.tool_calls, s.tool_call_order)).2.1,
          tool_call_order := (parseToolEntryCore (mkToolEntry d)
            (s.tool_call_index_map, s.tool_calls, s.tool_call_order)).2.2 }) := by
  have hu : handleUsage (mkToolChunk d) s = s := rfl
  have hch := handleChoices_toolChunk d s hts
  simp only [processChunk, parseStreamEvent, payloadCore, hu, hch]
  simp only [hfr, hp, hrs]
  simp

theorem processChunk_toolInv (d : ToolDeltaSpec) (i : Nat) (c nm frags : String)
    (s : ProtocolStreamState) (hc : c ≠ "") (hi : d.idx = i) (hid : d.id = "" ∨ d.id = c)
    (hInv : ToolInv i c nm frags s) :
    ∃ s', processChunk s (.payload (mkToolChunk d)) = ([], s') ∧
      ToolInv i c (if d.name ≠ "" then d.name else nm) (frags ++ d.args) s' := by
  obtain ⟨hp, him, htc, hod, hem, hrs, hts, hfr⟩ := hInv
  refine ⟨_, processChunk_toolChunk d s hts hp hfr hrs, ?_⟩
  have hstep := parseToolEntryCore_stepInv d i c nm frags hc hi hid
  rw [him, htc, hod, hstep]
  exact ⟨hp, rfl, rfl, rfl, hem, hrs, hts, hfr⟩

/-- The first chunk of the call from a fresh state: TextStart is emitted
and the accumulator is created. -/
theorem processChunk_firstToolChunk (d : ToolDeltaSpec) (i : Nat) (c : String)
    (hc : c ≠ "") (hi : d.idx = i) (hid : d.id = c) :
    processChunk initState (.payload (mkToolChunk d)) =
      ([StreamEvent.textStart],
        { initState with
            text_started := true,
            tool_call_index_map := [(i, c)],
            tool_calls := [(c, ⟨c, d.name, d.args⟩)],
            tool_call_order := List.replicate i "" ++ [c] }) := by
  have hu : handleUsage (mkToolChunk d) initState = initState := rfl
  have hch := handleChoices_toolChunk_fresh d initState rfl
  have hfd := parseToolEntryCore_firstDelta d i c hc hi hid
  have htriple : (initState.tool_call_index_map, initState.tool_calls,
      initState.tool_call_order) = (([] : List (Nat × String)),
      ([] : List (String × ToolCallAccum)), ([] : List String)) := rfl
  rw [htriple, hfd] at hch
  simp only [processChunk, parseStreamEvent, payloadCore, hu, hch]
  have hf : initState.finish_reason = none := rfl
  have hpe : initState.pending_events = [] := rfl
  have hrs2 : initState.reasoning_started = false := rfl
  simp only [hf, hpe, hrs2]
  simp


/-- Emission skips placeholder slots whose key resolves to no accumulator. -/
theorem emitStep_blankKey (s : ProtocolStreamState)
    (h : lookupAcc "" s.tool_calls = none) :
    emitStep true s "" = s := by
  simp only [emitStep, h]
  split_ifs <;> rfl

theorem emitFold_blankKeys (i : Nat) (s : ProtocolStreamState)
    (h : lookupAcc "" s.tool_calls = none) :
    List.foldl (emitStep true) s (List.replicate i "") = s := by
  induction i with
  | zero => rfl
  | succ n ih => rw [List.replicate_succ, List.foldl_cons, emitStep_blankKey s h]; exact ih

/-- Submitting the stream terminator while the invariant holds (and the
call has a name) flushes the one accumulated call as a single ToolCall
event carrying the parsed concatenation of its fragments. -/
theorem processChunk_done_toolInv (i : Nat) (c nm frags : String)
    (s : ProtocolStreamState) (hc : c ≠ "") (hnm : nm ≠ "")
    (hInv : ToolInv i c nm frags s) :
    processChunk s .done =
      ([StreamEvent.toolCall c nm (toolCallInput frags)],
        { s with pending_events := [], emitted_tool_calls := [c] }) := by
  obtain ⟨hp, him, htc, hod, hem, hrs, hts, hfr⟩ := hInv
  have hblank : lookupAcc "" s.tool_calls = none := by
    rw [htc]; exact lookupAcc_miss c "" ⟨c, nm, frags⟩ hc
  have hstep : emitStep true s c =
      { s with pending_events := s.pending_events ++ [StreamEvent.toolCall c nm (toolCallInput frags)],
               emitted_tool_calls := s.emitted_tool_calls ++ [c] } := by
    simp only [emitStep, hem, htc, lookupAcc_hit, List.contains_nil,
      Bool.false_eq_true, if_false, toolCallInput, pushEvent]
    rw [if_neg hnm, if_neg (by simp)]
  have hfold : emitToolCalls true s =
      { s with pending_events := s.pending_events ++ [StreamEvent.toolCall c nm (toolCallInput frags)],
               emitted_tool_calls := s.emitted_tool_calls ++ [c] } := by
    simp only [emitToolCalls, hod, List.foldl_append, List.foldl_cons, List.foldl_nil,
      emitFold_blankKeys i s hblank, hstep]
  simp only [processChunk, parseStreamEvent, doneCore, hfold, closeReasoning, hrs,
    Bool.false_eq_true, if_false, hp, hem, List.nil_append]


/-- Folding the remaining deltas of the call and then the terminator over
an invariant state yields exactly the one flushed ToolCall. -/
theorem runSteps_toolLoop (rest : List ToolDeltaSpec) :
    ∀ (i : Nat) (c nm frags : String) (s : ProtocolStreamState), c ≠ "" →
    finalName nm rest ≠ "" →
    (∀ d ∈ rest, d.idx = i ∧ (d.id = "" ∨ d.id = c)) →
    ToolInv i c nm frags s →
    runSteps s (rest.map (fun d => ChunkData.payload (mkToolChunk d)) ++ [ChunkData.done]) =
      [StreamEvent.toolCall c (finalName nm rest)
        (toolCallInput (concatFrom frags rest))] := by
  induction rest with
  | nil =>
      intro i c nm frags s hc hnm hall hInv
      have hnm0 : nm ≠ "" := by simpa [finalName] using hnm
      have hd := processChunk_done_toolInv i c nm frags s hc hnm0 hInv
      simp [runSteps, hd, finalName, concatFrom]
  | cons d rest ih =>
      intro i c nm frags s hc hnm hall hInv
      obtain ⟨hd1, hd2⟩ := hall d (List.mem_cons_self d rest)
      obtain ⟨s', hps, hInv'⟩ := processChunk_toolInv d i c nm frags s hc hd1 hd2 hInv
      have hnm' : finalName (if d.name ≠ "" then d.name else nm) rest ≠ "" := by
        simpa [finalName] using hnm
      have hrest := ih i c (if d.name ≠ "" then d.name else nm) (frags ++ d.args) s'
        hc hnm' (fun d' hd' => hall d' (List.mem_cons_of_mem d hd')) hInv'
      simp only [List.map_cons, List.cons_append, runSteps, hps, List.nil_append,
        List.append_eq]
      rw [hrest]
      simp [finalName, concatFrom, ite_not]


/-- C1 (amended): for every stream consisting of tool-call deltas of one
logical call whose FIRST delta carries the positional index together with a
non-empty id - every later delta repeating the index and carrying either no
id or the same id - followed by the stream terminator, and where the
accumulated function name is non-empty, the parser emits exactly the two
events TextStart and one ToolCall; the ToolCall carries the first
(non-empty-overwritten) function name and, as input, the JSON parse of the
concatenation of all argument fragments in arrival order (falling back to
the raw concatenated string when it does not parse, and to the empty object
when it is blank).  The restriction to an id arriving on the first delta is
necessary: see the fragment-loss counterexample. -/
theorem c1_amended_single_tool_call_accumulation (d0 : ToolDeltaSpec)
    (rest : List ToolDeltaSpec) (i : Nat) (c : String)
    (hc : c ≠ "") (h0i : d0.idx = i) (h0id : d0.id = c)
    (hall : ∀ d ∈ rest, d.idx = i ∧ (d.id = "" ∨ d.id = c))
    (hnm : finalName d0.name rest ≠ "") :
    runStream (ChunkData.payload (mkToolChunk d0) ::
        (rest.map (fun d => ChunkData.payload (mkToolChunk d)) ++ [ChunkData.done])) =
      [StreamEvent.textStart,
       StreamEvent.toolCall c (finalName d0.name rest)
         (toolCallInput (concatFrom d0.args rest))] := by
  have h1 := processChunk_firstToolChunk d0 i c hc h0i h0id
  have hInv1 : ToolInv i c d0.name d0.args
      { initState with
          text_started := true,
          tool_call_index_map := [(i, c)],
          tool_calls := [(c, ⟨c, d0.name, d0.args⟩)],
          tool_call_order := List.replicate i "" ++ [c] } :=
    ⟨rfl, rfl, rfl, rfl, rfl, rfl, rfl, rfl⟩
  have h2 := runSteps_toolLoop rest i c d0.name d0.args _ hc hnm hall hInv1
  simp only [runStream, runSteps, h1, h2]
  rfl


/-- C1 counterexample: the original claim admits the id arriving AFTER the
positional index.  When the first delta of the call arrives under the
positional index only (placeholder key "0") and a later delta brings the
id, `parse_tool_delta` re-keys the call and creates a FRESH accumulator
under the id (the placeholder entry under key "0" is abandoned and its
order slot is overwritten), so the early argument fragment "[1," is
dropped: the emitted ToolCall carries input `Json.str "2]"`, not the JSON
parse `[1,2]` of the full concatenation "[1,2]" that the claim requires. -/
theorem c1_counterexample_fragment_loss :
    runStream [ChunkData.payload (mkToolChunk ⟨0, "", "", "[1,"⟩),
               ChunkData.payload (mkToolChunk ⟨0, "call_x", "f", "2]"⟩),
               ChunkData.done] =
      [StreamEvent.textStart, StreamEvent.toolCall "call_x" "f" (Json.str "2]")] ∧
    toolCallInput ("[1," ++ "2]") = Json.arr [Json.num 1, Json.num 2] ∧
    Json.str "2]" ≠ Json.arr [Json.num 1, Json.num 2] :=
  ⟨by rfl, by rfl, fun h => Json.noConfusion h⟩


theorem c1_amended_single_tool_call_accumulation_witness :
    ("call_1" : String) ≠ "" ∧
    ((⟨0, "call_1", "readFile", "[1,"⟩ : ToolDeltaSpec).idx = 0) ∧
    ((⟨0, "call_1", "readFile", "[1,"⟩ : ToolDeltaSpec).id = "call_1") ∧
    (∀ d ∈ [(⟨0, "", "", "2]"⟩ : ToolDeltaSpec)], d.idx = 0 ∧ (d.id = "" ∨ d.id = "call_1")) ∧
    finalName (⟨0, "call_1", "readFile", "[1,"⟩ : ToolDeltaSpec).name
      [(⟨0, "", "", "2]"⟩ : ToolDeltaSpec)] ≠ "" ∧
    runStream (ChunkData.payload (mkToolChunk ⟨0, "call_1", "readFile", "[1,"⟩) ::
        ([(⟨0, "", "", "2]"⟩ : ToolDeltaSpec)].map
            (fun d => ChunkData.payload (mkToolChunk d)) ++ [ChunkData.done])) =
      [StreamEvent.textStart,
       StreamEvent.toolCall "call_1"
         (finalName (⟨0, "call_1", "readFile", "[1,"⟩ : ToolDeltaSpec).name
           [⟨0, "", "", "2]"⟩])
         (toolCallInput (concatFrom (⟨0, "call_1", "readFile", "[1,"⟩ : ToolDeltaSpec).args
           [⟨0, "", "", "2]"⟩]))] :=
  ⟨by decide, rfl, rfl, by decide, by decide,
    c1_amended_single_tool_call_accumulation ⟨0, "call_1", "readFile", "[1,"⟩
      [⟨0, "", "", "2]"⟩] 0 "call_1" (by decide) rfl rfl (by decide) (by decide)⟩

end TalkCody
